import Mathlib

/-!
Verification development for the Thrill PageRank example
(`examples/page_rank/page_rank.hpp` and `examples/page_rank/page_rank_run.cpp`).

Ranks are `double` in the source; we embed the rank arithmetic over `ℚ`
(exact rational arithmetic), which realises the spec's "up to floating-point
tolerance" statements exactly.  Distributed collections (`DIA<T>`) are
embedded as Lean `List`s; the keyed reductions fold with rational addition,
which is associative and commutative, so the fold over a multiset is embedded
as a `filter`/`sum` over a list.
-/

namespace PageRankSpec

/-- `using PageId = std::size_t;` (page_rank.hpp:43). -/
abbrev PageId := Nat

/-- `using Rank = double;` (page_rank.hpp:44); embedded as exact rationals. -/
abbrev Rank := ℚ

/-- `static constexpr double dampening = 0.85;` (page_rank.hpp:41). -/
def dampening : ℚ := 85 / 100

/-- The `FlatMap` body shared by all three PageRank variants
(page_rank.hpp:113-121, 191-198, 271-278): a record pairing an
outgoing-link list with the parent page's rank emits, when the list is
nonempty, one `(target, rank / outdegree)` record per target, and emits
nothing when the list is empty.  The index-based variant guards with
`if (p.first.size() == 0) return;`, the join variants with
`if (p.first.size() > 0) { ... }`; both reduce to this function. -/
def emitContribs (p : List PageId × Rank) : List (PageId × Rank) :=
  if p.1.length = 0 then []
  else p.1.map (fun tgt => (tgt, p.2 / (p.1.length : ℚ)))

/-- Modelled from the spec: the engine's `ReduceToIndex` operator
(`thrill/api/reduce_to_index.hpp` is not under `src/`; spec §4.2), at the
call page_rank.hpp:126-132 — keyed by `p.page`, combining by rank addition,
over a universe of `n` indices: index `i` of the result holds the sum of
all contributions keyed `i`, with one synthesized zero record for an index
that received no contribution.  Rational addition is associative and
commutative, so the pairwise fold is embedded as a list sum. -/
def reduceToIndexSum (contribs : List (PageId × Rank)) (n : Nat) : List Rank :=
  (List.range n).map (fun i => ((contribs.filter (fun c => c.1 = i)).map Prod.snd).sum)

/-- One iteration of the loop body of `PageRank` (page_rank.hpp:87-137):
`Zip` links with ranks, `FlatMap` to contributions, `ReduceToIndex` by target
page, then apply dampening `d * rank + (1 - d) / num_pages`. -/
def pageRankIter (links : List (List PageId)) (n : Nat) (ranks : List Rank) :
    List Rank :=
  let outs := links.zip ranks
  let contribs := outs.flatMap emitContribs
  (reduceToIndexSum contribs n).map
    (fun r => dampening * r + (1 - dampening) / (n : ℚ))

/-- The initial ranks of `PageRank` (page_rank.hpp:80-84):
`Generate(ctx, num_pages, fun _ => 1.0 / num_pages)`. -/
def initRanks (n : Nat) : List Rank := List.replicate n (1 / (n : ℚ))

/-- `PageRank(links, num_pages, iterations)` (page_rank.hpp:72-140):
initialise all ranks to `1/n` and run `iterations` iterations. -/
def pageRank (links : List (List PageId)) (n iters : Nat) : List Rank :=
  (pageRankIter links n)^[iters] (initRanks n)

/-- Modelled from the spec: the engine's `GroupToIndex` operator
(`thrill/api/group_to_index.hpp` is not under `src/`; spec §4.2), at the
call page_rank_run.cpp:79-88: index `i` of the result is the list of
targets of all edges with source `i`, in arrival order (the group iterator
yields elements in arrival order). -/
def groupToIndexLinks (edges : List (PageId × PageId)) (n : Nat) :
    List (List PageId) :=
  (List.range n).map (fun i => (edges.filter (fun e => e.1 = i)).map Prod.snd)

/-- `num_pages` of the file-based index run (page_rank_run.cpp:67-70):
one plus the maximum over all edges of `max src tgt`. -/
def numPagesOf (edges : List (PageId × PageId)) : Nat :=
  ((edges.map (fun e => max e.1 e.2)).foldl max 0) + 1

/-- `LinkedPage = std::pair<PageId, OutgoingLinks>` (page_rank.hpp:68). -/
abbrev LinkedPage := PageId × List PageId

/-- `RankedPage = std::pair<PageId, Rank>` (page_rank.hpp:69). -/
abbrev RankedPage := PageId × Rank

/-- Modelled from the spec: the reference semantics of
`InnerJoin(left, right, kl, kr, f)` (`thrill/api/inner_join.hpp` is not
under `src/`; spec §4.3; callers at page_rank.hpp:173-180 and 253-260):
for every pair `(l, r)` with `kl l = kr r`, one output record `f l r`; the
cross product of all matches of one key is emitted, in the product order of
the two sides. -/
def innerJoinList {α β γ : Type} (ka : α → Nat) (kb : β → Nat) (f : α → β → γ)
    (ls : List α) (rs : List β) : List γ :=
  ls.flatMap (fun l => (rs.filter (fun r => kb r = ka l)).map (f l))

/-- Modelled from the spec: the engine's partitioned collections (the DIA
machinery of `thrill/api/*` is not under `src/`).  A collection is split
into `W` worker partitions; a keyed build stage places a record with key `k`
into partition `k % W` (hash-partitioning with the identity hash on the
dense integer keys, spec §4.3: `hash(key) mod numWorkers`). -/
def partitionBy {α : Type} (W : Nat) (key : α → Nat) (l : List α) :
    List (List α) :=
  (List.range W).map (fun w => l.filter (fun a => key a % W = w))

/-- Modelled from the spec: the location-detection check of `InnerJoin`
(`thrill/api/inner_join.hpp` is not under `src/`; spec §4.3).  Both sides
must have the same partition count, and all records sharing a key must
reside in the same partition: records in distinct partitions never share
a key. -/
def coPartitioned {α β : Type} (ka : α → Nat) (kb : β → Nat)
    (ps : List (List α)) (qs : List (List β)) : Bool :=
  (ps.length == qs.length) &&
  (List.range ps.length).all (fun i => (List.range qs.length).all (fun j =>
    (i == j) ||
      (ps.getD i []).all (fun a => (qs.getD j []).all (fun b => !(kb b == ka a)))))

/-- Modelled from the spec: the local per-partition join path (spec §4.3):
the join executes entirely locally on each pair of aligned partitions, with
no shuffle. -/
def localPartitionJoin {α β γ : Type} (ka : α → Nat) (kb : β → Nat)
    (f : α → β → γ) (ps : List (List α)) (qs : List (List β)) : List γ :=
  ((ps.zip qs).map (fun pq => innerJoinList ka kb f pq.1 pq.2)).flatten

/-- Modelled from the spec: the fallback shuffle-based hash join (spec §4.3):
both sides are repartitioned by `hash(key) mod numWorkers`, then joined
locally per worker. -/
def hashInnerJoin {α β γ : Type} (W : Nat) (ka : α → Nat) (kb : β → Nat)
    (f : α → β → γ) (ls : List α) (rs : List β) : List γ :=
  localPartitionJoin ka kb f (partitionBy W ka ls) (partitionBy W kb rs)

/-- Modelled from the spec: `InnerJoin` with the `LocationDetectionFlag`
(spec §4.3, `thrill/api/inner_join.hpp` not under `src/`).  With the flag
enabled the engine checks co-partitioning and, if it holds, joins locally on
the existing partitions; otherwise — and always with the flag disabled — it
falls back to the shuffle-based hash join over the flattened contents. -/
def innerJoinLD {α β γ : Type} (useLD : Bool) (W : Nat) (ka : α → Nat)
    (kb : β → Nat) (f : α → β → γ) (ps : List (List α)) (qs : List (List β)) :
    List γ :=
  if useLD && coPartitioned ka kb ps qs then localPartitionJoin ka kb f ps qs
  else hashInnerJoin W ka kb f ps.flatten qs.flatten

/-- The key universe of a keyed pair list, in ascending order: all keys up to
the maximum that occur in the list.  `ReducePair`'s output order across keys
is unspecified by the engine (spec §4.3/§5), so the embedding canonicalises
it to ascending key order; the choice is immaterial because downstream
consumers are key-driven. -/
def sortedKeys (l : List (PageId × Rank)) : List PageId :=
  (List.range ((l.map Prod.fst).foldr max 0 + 1)).filter
    (fun k => (l.map Prod.fst).contains k)

/-- Modelled from the spec: the engine's `ReducePair` operator
(`thrill/api/reduce_by_key.hpp` is not under `src/`; spec §4.2), at the
calls page_rank.hpp:204-207 and 285-288: group the `(key, rank)` pairs by
key and fold the ranks of each key with addition; a key absent from the
input is absent from the output.  Rational addition is associative and
commutative, so the fold is embedded as a `filter`/`sum`. -/
def reducePair (l : List (PageId × Rank)) : List (PageId × Rank) :=
  (sortedKeys l).map
    (fun k => (k, ((l.filter (fun c => c.1 = k)).map Prod.snd).sum))

/-- One iteration of the loop body of `PageRankJoinSelf`
(page_rank.hpp:154-220): `InnerJoin` links with ranks on the page key,
`FlatMap` to contributions, `ReducePair` by target page, then apply
`dampening * rank + (1 - dampening)` — note: no division by `num_pages`
in this variant (page_rank.hpp:208-212).  The two join operands enter
hash-partitioned by their page key over `W` workers. -/
def joinSelfIter (flag : Bool) (W : Nat) (links : List LinkedPage)
    (ranks : List RankedPage) : List RankedPage :=
  let outs := innerJoinLD flag W Prod.fst Prod.fst
    (fun lp rp => (lp.2, rp.2))
    (partitionBy W Prod.fst links) (partitionBy W Prod.fst ranks)
  let contribs := outs.flatMap emitContribs
  (reducePair contribs).map
    (fun p => (p.1, dampening * p.2 + (1 - dampening)))

/-- `PageRankJoinSelf<UseLocationDetection>(links, iterations)`
(page_rank.hpp:142-222): initialise each linked page's rank to `1.0`
(page_rank.hpp:148-150) and run `iterations` iterations. -/
def pageRankJoinSelf (flag : Bool) (W : Nat) (links : List LinkedPage)
    (iters : Nat) : List RankedPage :=
  (joinSelfIter flag W links)^[iters] (links.map (fun lp => (lp.1, (1 : ℚ))))

/-- One iteration of the loop body of `PageRankJoin` (page_rank.hpp:242-296):
like `joinSelfIter` but the dampening step divides by `num_pages`
(page_rank.hpp:289-293). -/
def joinIter (flag : Bool) (W : Nat) (n : Nat) (links : List LinkedPage)
    (ranks : List RankedPage) : List RankedPage :=
  let outs := innerJoinLD flag W Prod.fst Prod.fst
    (fun lp rp => (lp.2, rp.2))
    (partitionBy W Prod.fst links) (partitionBy W Prod.fst ranks)
  let contribs := outs.flatMap emitContribs
  (reducePair contribs).map
    (fun p => (p.1, dampening * p.2 + (1 - dampening) / (n : ℚ)))

/-- `PageRankJoin<UseLocationDetection>(links, num_pages, iterations)`
(page_rank.hpp:224-299): initialise rank `(idx, 1.0 / num_pages)` for every
index in `[0, num_pages)` (page_rank.hpp:233-239) and run `iterations`
iterations. -/
def pageRankJoin (flag : Bool) (W : Nat) (links : List LinkedPage)
    (n iters : Nat) : List RankedPage :=
  (joinIter flag W n links)^[iters]
    ((List.range n).map (fun i => (i, 1 / (n : ℚ))))

/-- The loop body of `PageRankJoin` with the engine's join replaced by the
flat reference join semantics (used to relate the partitioned execution to
the index-based shape). -/
def joinIterFlat (n : Nat) (links : List LinkedPage)
    (ranks : List RankedPage) : List RankedPage :=
  let outs := innerJoinList Prod.fst Prod.fst
    (fun lp rp => (lp.2, rp.2)) links ranks
  let contribs := outs.flatMap emitContribs
  (reducePair contribs).map
    (fun p => (p.1, dampening * p.2 + (1 - dampening) / (n : ℚ)))

/-- `PageRankJoin` over the flat reference join semantics. -/
def pageRankJoinFlat (links : List LinkedPage) (n iters : Nat) :
    List RankedPage :=
  (joinIterFlat n links)^[iters] ((List.range n).map (fun i => (i, 1 / (n : ℚ))))

/-- The summed raw incoming contribution of page `i` in one index-based
iteration, written directly as a sum over the link/rank pairs: each pair
`(ol, r)` contributes `(multiplicity of i in ol) * (r / |ol|)` (zero for an
empty `ol`, since `x / 0 = 0` in `ℚ` and the multiplicity is then `0`). -/
def rawTotalIndex (links : List (List PageId)) (ranks : List Rank)
    (i : PageId) : ℚ :=
  ((links.zip ranks).map
    (fun p => ((p.1.filter (fun t => t = i)).length : ℚ) *
      (p.2 / (p.1.length : ℚ)))).sum

/-- The summed raw incoming contribution of page `i` in one join-based
iteration: each adjacency record `(q, ol)` contributes
`(multiplicity of i in ol) * (Σ ranks of key q) / |ol|`. -/
def rawTotalJoin (links : List LinkedPage) (ranks : List RankedPage)
    (i : PageId) : ℚ :=
  (links.map
    (fun lp => ((lp.2.filter (fun t => t = i)).length : ℚ) *
      ((((ranks.filter (fun rp => rp.1 = lp.1)).map Prod.snd).sum) /
        (lp.2.length : ℚ)))).sum

/-- The rank assigned to page `p` by a join-variant output collection: the
sum of the rank fields of the records keyed `p` (zero when absent). -/
def ranksValue (l : List RankedPage) (p : PageId) : ℚ :=
  ((l.filter (fun c => c.1 = p)).map Prod.snd).sum

/-! ## The edge-line parser (`page_rank_run.cpp:35-47`)

`PageRankLineParser` calls `std::strtoul(input, &endptr, 10)`, requires
`*endptr == ' '`, calls `std::strtoul(endptr + 1, &endptr, 10)` and requires
`*endptr == 0`; `die_unless` aborts the whole run when a check fails
(embedded as `none`).  `strtoul` is embedded by its C semantics: skip
leading whitespace, an optional `+`/`-` sign, then a nonempty digit
sequence; if no digits follow, no conversion is performed and `endptr` is
reset to the start of the input; on overflow the result saturates at
`ULONG_MAX`; a `-` sign wraps the value modulo `2^64`
(`unsigned long` is 64 bits). -/

/-- The six C whitespace characters accepted by `isspace` in the C locale:
space (32), tab (9), newline (10), vertical tab (11), form feed (12),
carriage return (13), compared by code point. -/
def isSpaceC (c : Char) : Bool :=
  c.toNat = 32 || c.toNat = 9 || c.toNat = 10 || c.toNat = 11 ||
    c.toNat = 12 || c.toNat = 13

/-- Decimal digit test by code point: `'0'` is 48 and `'9'` is 57. -/
def isDigitC (c : Char) : Bool := 48 ≤ c.toNat && c.toNat ≤ 57

/-- Consume a maximal digit prefix, accumulating its decimal value. -/
def digitsVal (acc : Nat) : List Char → Nat × List Char
  | [] => (acc, [])
  | c :: cs =>
    if isDigitC c then digitsVal (acc * 10 + (c.toNat - 48)) cs else (acc, c :: cs)

/-- `ULONG_MAX + 1` for the 64-bit `unsigned long` of the target platform. -/
def ulongMod : Nat := 2 ^ 64

/-- `std::strtoul(s, &endptr, 10)`: returns the converted value and the
suffix starting at `endptr`. -/
def strtoul10 (s : List Char) : Nat × List Char :=
  let t := s.dropWhile isSpaceC
  let neg := t.head? = some '-'
  let u := if t.head? = some '+' || t.head? = some '-' then t.tail else t
  if (u.head?.map isDigitC).getD false then
    let v := digitsVal 0 u
    let m := if v.1 ≥ ulongMod then ulongMod - 1
             else if neg then (ulongMod - v.1) % ulongMod else v.1
    (m, v.2)
  else (0, s)

/-- `PageRankLineParser::operator()` (page_rank_run.cpp:36-46); `none`
models the fatal `die_unless` abort of the whole run. -/
def pageRankLineParser (s : List Char) : Option (PageId × PageId) :=
  let p1 := strtoul10 s
  match p1.2 with
  | ' ' :: r2 =>
    let p2 := strtoul10 r2
    if p2.2 = [] then some (p1.1, p2.1) else none
  | _ => none

/-- Decimal value of a digit string. -/
def natOfDigits (l : List Char) : Nat :=
  l.foldl (fun a c => a * 10 + (c.toNat - 48)) 0

/-- The line form claimed by the spec (§6): two positive integers separated
by a single space with nothing trailing.  This definition follows the
spec's words, to be compared with the parser embedded from the source. -/
def specLineOk (s : List Char) : Bool :=
  let a := s.takeWhile (fun c => c ≠ ' ')
  match s.dropWhile (fun c => c ≠ ' ') with
  | ' ' :: b =>
    !a.isEmpty && !b.isEmpty && a.all isDigitC && b.all isDigitC &&
      decide (0 < natOfDigits a) && decide (0 < natOfDigits b)
  | _ => false

/-! ## Output formatting (`page_rank_run.cpp`)

The index-based run modes format their output with `ZipWithIndex`. -/

/-- Modelled from the spec: the engine's `ZipWithIndex` operator
(`thrill/api/zip_with_index.hpp` is not under `src/`): each element is
paired with its global index `0 .. size-1`, the zip function receiving
`(element, index)` — the order used by `RunPageRankEdgePerLine`
(page_rank_run.cpp:97-101), whose zip function is
`(const Rank& r, const PageId& p)` on a `DIA<Rank>` with the comment
"generate index numbers: 0...num_pages-1". -/
def zipWithIndex {α β : Type} (f : α → Nat → β) (l : List α) : List β :=
  (l.zip (List.range l.length)).map (fun p => f p.1 p.2)

/-- An output line, abstracted to its two printed fields: the integer
before `": "` and the decimal value after it. -/
structure OutLine where
  idField : Nat
  rankField : ℚ
  deriving DecidableEq, Repr

/-- Output stage of `RunPageRankEdgePerLine` (page_rank_run.cpp:96-103):
`tlx::ssprintf("%zu: %g", p, r)` with `r` the element and `p` the index. -/
def edgePerLineOutput (ranks : List Rank) : List OutLine :=
  zipWithIndex (fun r p => OutLine.mk p r) ranks

/-- Truncating conversion `double → size_t` applied to a non-negative rank
(C++ floating-to-integral conversion discards the fractional part). -/
def ratTruncToNat (q : ℚ) : Nat := q.floor.toNat

/-- Output stage of `RunPageRankGenerated` (page_rank_run.cpp:223-230): the
lambda is declared `(const PageId& p, const Rank& r)`, so the element (a
`Rank`) is converted to `size_t` and bound to `p`, and the index (a
`size_t`) is converted to `double` and bound to `r`; the line is
`std::to_string(p) + ": " + std::to_string(r)`. -/
def generatedOutput (ranks : List Rank) : List OutLine :=
  zipWithIndex (fun r p => OutLine.mk (ratTruncToNat r) (p : ℚ)) ranks

/-- Output stage of `RunJoinPageRankEdgePerLine` (page_rank_run.cpp:164-167)
and `RunPageRankJoinGenerated` (page_rank_run.cpp:276-279):
`tlx::ssprintf("%zu: %g", rp.first, rp.second)`. -/
def joinOutput (ranks : List RankedPage) : List OutLine :=
  ranks.map (fun rp => OutLine.mk rp.1 rp.2)

/-! ## The synthetic graph generator (`page_rank_run.cpp:205-212, 261-267`)

`RunPageRankGenerated` builds
`rng = std::default_random_engine(std::random_device{}())` and generates
page `index`'s adjacency record as `graph_gen.GenerateOutgoing(rng)`,
threading the engine state through the calls.  The seed is drawn from
`std::random_device`, an environmental entropy source, embedded here as an
explicit parameter of the run. -/

/-- Modelled from the spec: `std::default_random_engine`
(a standard-library type, not under `src/`); embedded as the minimal
standard linear congruential engine `x ↦ 16807 x mod (2^31 - 1)`. -/
def lcgNext (s : Nat) : Nat := (16807 * s) % 2147483647

/-- The generator-tuning parameters of `ZipfGraphGen`
(page_rank_run.cpp:317-333). -/
structure ZipfGraphGen where
  size_mean : ℚ
  size_var : ℚ
  link_zipf_scale : ℚ
  link_zipf_exponent : ℚ
  deriving DecidableEq, Repr

/-- Modelled from the spec: `ZipfGraphGen::GenerateOutgoing`
(`examples/page_rank/zipf_graph_gen.hpp` is not under `src/`; spec §6:
"given a page count and degree-distribution parameters (mean, variance,
Zipf scale/exponent) ... yields a synthetic AdjacencyRecord per page").
A deterministic function of the parameters and the engine state: it draws
an out-degree around `size_mean` and then one target in `[0, num_pages)`
per link, advancing the engine state with each draw. -/
def generateOutgoing (gg : ZipfGraphGen) (numPages : Nat) (s : Nat) :
    List PageId × Nat :=
  let s1 := lcgNext s
  let deg := s1 % (⌈2 * gg.size_mean⌉.toNat + 1)
  (List.range deg).foldl
    (fun (acc : List PageId × Nat) _ =>
      (acc.1 ++ [lcgNext acc.2 % numPages], lcgNext acc.2))
    ([], s1)

/-- The generated links collection of `RunPageRankGenerated`
(page_rank_run.cpp:205-212): page `0 .. num_pages-1`'s adjacency records,
generated in order with the engine state threaded through, starting from
the `std::random_device` draw `deviceSeed`. -/
def generatedLinks (gg : ZipfGraphGen) (numPages : Nat) (deviceSeed : Nat) :
    List (List PageId) :=
  ((List.range numPages).foldl
    (fun (acc : List (List PageId) × Nat) _ =>
      let r := generateOutgoing gg numPages acc.2
      (acc.1 ++ [r.1], r.2))
    ([], deviceSeed)).1

/-! ## Join correctness: both physical strategies realise the same multiset -/

/-- The inner-join semantics on multisets: for every pair of records with
equal keys, one combined record. -/
def joinMultiset {α β γ : Type} (ka : α → Nat) (kb : β → Nat) (f : α → β → γ)
    (s : Multiset α) (t : Multiset β) : Multiset γ :=
  s.bind (fun l => (t.filter (fun r => kb r = ka l)).map (f l))

theorem coe_innerJoinList {α β γ : Type} (ka : α → Nat) (kb : β → Nat)
    (f : α → β → γ) (ls : List α) (rs : List β) :
    ((innerJoinList ka kb f ls rs : List γ) : Multiset γ) =
      joinMultiset ka kb f (ls : Multiset α) (rs : Multiset β) :=
  (Multiset.coe_bind ls _).symm

theorem joinMultiset_add_left {α β γ : Type} (ka : α → Nat) (kb : β → Nat)
    (f : α → β → γ) (s₁ s₂ : Multiset α) (t : Multiset β) :
    joinMultiset ka kb f (s₁ + s₂) t =
      joinMultiset ka kb f s₁ t + joinMultiset ka kb f s₂ t :=
  Multiset.add_bind s₁ s₂ _

theorem joinMultiset_add_right {α β γ : Type} (ka : α → Nat) (kb : β → Nat)
    (f : α → β → γ) (s : Multiset α) (t₁ t₂ : Multiset β) :
    joinMultiset ka kb f s (t₁ + t₂) =
      joinMultiset ka kb f s t₁ + joinMultiset ka kb f s t₂ := by
  unfold joinMultiset
  rw [← Multiset.bind_add]
  apply Multiset.bind_congr
  intro l _
  rw [Multiset.filter_add, Multiset.map_add]

theorem joinMultiset_disjoint {α β γ : Type} (ka : α → Nat) (kb : β → Nat)
    (f : α → β → γ) (s : Multiset α) (t : Multiset β)
    (h : ∀ a ∈ s, ∀ b ∈ t, ¬ kb b = ka a) :
    joinMultiset ka kb f s t = 0 := by
  unfold joinMultiset
  rw [show (0 : Multiset γ) = s.bind (fun _ => 0) from (Multiset.bind_zero s).symm]
  apply Multiset.bind_congr
  intro l hl
  rw [Multiset.filter_eq_nil.mpr (fun b hb => h l hl b hb), Multiset.map_zero]

theorem mem_getD_of_mem_flatten {α : Type} {b : α} {l : List (List α)}
    (h : b ∈ l.flatten) : ∃ j, b ∈ l.getD j [] := by
  rcases List.mem_flatten.mp h with ⟨L, hL, hb⟩
  rcases List.getElem_of_mem hL with ⟨j, hj, rfl⟩
  exact ⟨j, by rw [List.getD_eq_getElem l [] hj]; exact hb⟩

/-- The local per-partition join realises the inner-join multiset of the
flattened contents, whenever the two sides are co-partitioned. -/
theorem localPartitionJoin_coe {α β γ : Type} (ka : α → Nat) (kb : β → Nat)
    (f : α → β → γ) :
    ∀ (ps : List (List α)) (qs : List (List β)),
      ps.length = qs.length →
      (∀ i j, i ≠ j → ∀ a ∈ ps.getD i [], ∀ b ∈ qs.getD j [], ¬ kb b = ka a) →
      ((localPartitionJoin ka kb f ps qs : List γ) : Multiset γ) =
        joinMultiset ka kb f (ps.flatten : Multiset α) (qs.flatten : Multiset β)
  | [], [], _, _ => by
    simp [localPartitionJoin, joinMultiset]
  | [], q :: qs, hlen, _ => by simp at hlen
  | p :: ps, [], hlen, _ => by simp at hlen
  | p :: ps, q :: qs, hlen, hdisj => by
    have hp0 : ∀ a ∈ p, ∀ b ∈ qs.flatten, ¬ kb b = ka a := by
      intro a ha b hb
      rcases mem_getD_of_mem_flatten hb with ⟨j, hj⟩
      exact hdisj 0 (j + 1) (by omega) a ha b hj
    have hq0 : ∀ a ∈ ps.flatten, ∀ b ∈ q, ¬ kb b = ka a := by
      intro a ha b hb
      rcases mem_getD_of_mem_flatten ha with ⟨i, hi⟩
      exact hdisj (i + 1) 0 (by omega) a hi b hb
    have ih := localPartitionJoin_coe ka kb f ps qs (by simpa using hlen)
      (fun i j hij a ha b hb => hdisj (i + 1) (j + 1) (by omega) a ha b hb)
    have hstep : localPartitionJoin ka kb f (p :: ps) (q :: qs) =
        innerJoinList ka kb f p q ++ localPartitionJoin ka kb f ps qs := by
      simp [localPartitionJoin]
    rw [hstep, List.flatten_cons, List.flatten_cons]
    show (innerJoinList ka kb f p q : Multiset γ) +
        (localPartitionJoin ka kb f ps qs : Multiset γ) =
      joinMultiset ka kb f ((p : Multiset α) + (ps.flatten : Multiset α))
        ((q : Multiset β) + (qs.flatten : Multiset β))
    rw [joinMultiset_add_left, joinMultiset_add_right, joinMultiset_add_right,
      coe_innerJoinList, ih,
      joinMultiset_disjoint ka kb f (↑p) (↑(qs.flatten)) (by simpa using hp0),
      joinMultiset_disjoint ka kb f (↑(ps.flatten)) (↑q) (by simpa using hq0)]
    abel

theorem coPartitioned_length {α β : Type} {ka : α → Nat} {kb : β → Nat}
    {ps : List (List α)} {qs : List (List β)}
    (h : coPartitioned ka kb ps qs = true) : ps.length = qs.length := by
  have := (Bool.and_eq_true _ _).mp h |>.1
  simpa using this

theorem coPartitioned_disj {α β : Type} {ka : α → Nat} {kb : β → Nat}
    {ps : List (List α)} {qs : List (List β)}
    (h : coPartitioned ka kb ps qs = true) :
    ∀ i j, i ≠ j → ∀ a ∈ ps.getD i [], ∀ b ∈ qs.getD j [], ¬ kb b = ka a := by
  intro i j hij a ha b hb
  by_cases hi : i < ps.length
  case neg =>
    rw [List.getD_eq_default _ _ (by omega)] at ha
    exact absurd ha (List.not_mem_nil a)
  by_cases hj : j < qs.length
  case neg =>
    rw [List.getD_eq_default _ _ (by omega)] at hb
    exact absurd hb (List.not_mem_nil b)
  have h2 := (Bool.and_eq_true _ _).mp h |>.2
  rw [List.all_eq_true] at h2
  have h3 := h2 i (List.mem_range.mpr hi)
  rw [List.all_eq_true] at h3
  have h4 := h3 j (List.mem_range.mpr hj)
  rcases (Bool.or_eq_true _ _).mp h4 with h5 | h5
  · exact absurd (by simpa using h5) hij
  · rw [List.all_eq_true] at h5
    have h6 := h5 a ha
    rw [List.all_eq_true] at h6
    have h7 := h6 b hb
    simpa using h7

theorem partitionBy_length {α : Type} (W : Nat) (key : α → Nat) (l : List α) :
    (partitionBy W key l).length = W := by
  simp [partitionBy]

theorem mem_partitionBy_getD {α : Type} {W : Nat} {key : α → Nat} {l : List α}
    {i : Nat} {a : α} (h : a ∈ (partitionBy W key l).getD i []) :
    a ∈ l ∧ key a % W = i := by
  by_cases hi : i < W
  case neg =>
    rw [List.getD_eq_default _ _ (by simp [partitionBy_length]; omega)] at h
    exact absurd h (List.not_mem_nil a)
  rw [partitionBy, List.getD_eq_getElem _ _ (by simpa using hi),
    List.getElem_map, List.getElem_range] at h
  exact ⟨List.mem_of_mem_filter h, by simpa using List.of_mem_filter h⟩

theorem partitionBy_coPartitioned {α β : Type} (W : Nat) (ka : α → Nat)
    (kb : β → Nat) (ls : List α) (rs : List β) :
    coPartitioned ka kb (partitionBy W ka ls) (partitionBy W kb rs) = true := by
  rw [coPartitioned, Bool.and_eq_true]
  constructor
  · simp [partitionBy_length]
  · rw [List.all_eq_true]
    intro i hi
    rw [List.all_eq_true]
    intro j hj
    rw [Bool.or_eq_true]
    by_cases hij : i = j
    · exact Or.inl (by simpa using hij)
    · right
      rw [List.all_eq_true]
      intro a ha
      rw [List.all_eq_true]
      intro b hb
      have h1 := mem_partitionBy_getD ha
      have h2 := mem_partitionBy_getD hb
      simp only [Bool.not_eq_eq_eq_not, Bool.not_true, beq_eq_false_iff_ne,
        ne_eq]
      intro hk
      exact hij (by rw [← h1.2, ← h2.2, hk])

theorem flatten_map_update {α : Type} :
    ∀ (ws : List Nat), ws.Nodup → ∀ (g : Nat → List α) (a : α) (w₀ : Nat),
      w₀ ∈ ws →
      ((ws.map (fun w => if w₀ = w then a :: g w else g w)).flatten).Perm
        (a :: (ws.map g).flatten)
  | [], _, _, _, _, hw => absurd hw (List.not_mem_nil _)
  | w :: ws, hnd, g, a, w₀, hw => by
    rcases List.nodup_cons.mp hnd with ⟨hwnotin, hnd1⟩
    by_cases hcase : w₀ = w
    · subst hcase
      have hmap : ws.map (fun w => if w₀ = w then a :: g w else g w) =
          ws.map g := by
        apply List.map_congr_left
        intro v hv
        rw [if_neg (fun hc => hwnotin (by rw [hc]; exact hv))]
      simp [hmap]
    · have hw1 : w₀ ∈ ws := by
        rcases List.mem_cons.mp hw with h | h
        · exact absurd h hcase
        · exact h
      have ih := flatten_map_update ws hnd1 g a w₀ hw1
      simp only [List.map_cons, List.flatten_cons, if_neg hcase]
      exact (ih.append_left (g w)).trans List.perm_middle

theorem flatten_partitionBy_perm {α : Type} (W : Nat) (hW : 0 < W)
    (key : α → Nat) :
    ∀ l : List α, ((partitionBy W key l).flatten).Perm l
  | [] => by simp [partitionBy]
  | a :: t => by
    have hmap : partitionBy W key (a :: t) =
        (List.range W).map
          (fun w => if key a % W = w
            then a :: (t.filter (fun x => key x % W = w))
            else t.filter (fun x => key x % W = w)) := by
      rw [partitionBy]
      apply List.map_congr_left
      intro w _
      rw [List.filter_cons]
      by_cases hc : key a % W = w
      · rw [if_pos (by simpa using hc), if_pos hc]
      · rw [if_neg (by simpa using hc), if_neg hc]
    rw [hmap]
    exact (flatten_map_update (List.range W) (List.nodup_range W) _ a _
        (List.mem_range.mpr (Nat.mod_lt _ hW))).trans
      ((flatten_partitionBy_perm W hW key t).cons a)

/-- Both join strategies — the local path taken under successful location
detection and the shuffle-based hash join — realise the inner-join multiset
of the flattened operands. -/
theorem innerJoinLD_multiset {α β γ : Type} (flag : Bool) (W : Nat)
    (hW : 0 < W) (ka : α → Nat) (kb : β → Nat) (f : α → β → γ)
    (ps : List (List α)) (qs : List (List β)) :
    ((innerJoinLD flag W ka kb f ps qs : List γ) : Multiset γ) =
      joinMultiset ka kb f (ps.flatten : Multiset α) (qs.flatten : Multiset β) := by
  have hhash : ∀ (ls : List α) (rs : List β),
      ((hashInnerJoin W ka kb f ls rs : List γ) : Multiset γ) =
        joinMultiset ka kb f (ls : Multiset α) (rs : Multiset β) := by
    intro ls rs
    rw [hashInnerJoin, localPartitionJoin_coe ka kb f _ _
      (by rw [partitionBy_length, partitionBy_length])
      (coPartitioned_disj (partitionBy_coPartitioned W ka kb ls rs))]
    rw [Multiset.coe_eq_coe.mpr (flatten_partitionBy_perm W hW ka ls),
      Multiset.coe_eq_coe.mpr (flatten_partitionBy_perm W hW kb rs)]
  rw [innerJoinLD]
  by_cases hcp : (flag && coPartitioned ka kb ps qs) = true
  · rw [if_pos hcp]
    have h2 := (Bool.and_eq_true _ _).mp hcp |>.2
    exact localPartitionJoin_coe ka kb f ps qs (coPartitioned_length h2)
      (coPartitioned_disj h2)
  · rw [if_neg hcp]
    exact hhash ps.flatten qs.flatten

/-- The two location-detection settings of `InnerJoin` produce permuted
(multiset-equal) outputs on all partitioned operands. -/
theorem innerJoinLD_flag_perm {α β γ : Type} (W : Nat) (hW : 0 < W)
    (ka : α → Nat) (kb : β → Nat) (f : α → β → γ)
    (ps : List (List α)) (qs : List (List β)) :
    (innerJoinLD true W ka kb f ps qs).Perm (innerJoinLD false W ka kb f ps qs) := by
  rw [← Multiset.coe_eq_coe, innerJoinLD_multiset true W hW,
    innerJoinLD_multiset false W hW]

/-! ## `ReducePair` is insensitive to the input order -/

theorem sortedKeys_perm {l₁ l₂ : List (PageId × Rank)} (h : l₁.Perm l₂) :
    sortedKeys l₁ = sortedKeys l₂ := by
  have hfst : (l₁.map Prod.fst).Perm (l₂.map Prod.fst) := h.map Prod.fst
  rw [sortedKeys, sortedKeys,
    @List.Perm.foldr_eq PageId PageId max _ _ ⟨fun a b c => by
      simp only [Nat.max_comm a, Nat.max_assoc]⟩ hfst 0]
  apply List.filter_congr
  intro k _
  simp only [List.contains, List.elem_eq_mem, decide_eq_decide]
  exact ⟨fun hm => hfst.mem_iff.mp hm, fun hm => hfst.mem_iff.mpr hm⟩

theorem reducePair_perm {l₁ l₂ : List (PageId × Rank)} (h : l₁.Perm l₂) :
    reducePair l₁ = reducePair l₂ := by
  rw [reducePair, reducePair, sortedKeys_perm h]
  apply List.map_congr_left
  intro k _
  have : ((l₁.filter (fun c => c.1 = k)).map Prod.snd).Perm
      ((l₂.filter (fun c => c.1 = k)).map Prod.snd) :=
    (h.filter _).map Prod.snd
  rw [this.sum_eq]

/-! ## The join-variant loop bodies do not depend on the join strategy -/

theorem joinSelfIter_flag (flag : Bool) (W : Nat) (hW : 0 < W)
    (links : List LinkedPage) (ranks : List RankedPage) :
    joinSelfIter flag W links ranks = joinSelfIter true W links ranks := by
  rw [joinSelfIter, joinSelfIter]
  have houts : (innerJoinLD flag W Prod.fst Prod.fst
      (fun lp rp => (lp.2, rp.2))
      (partitionBy W Prod.fst links) (partitionBy W Prod.fst ranks)).Perm
    (innerJoinLD true W Prod.fst Prod.fst
      (fun lp rp => (lp.2, rp.2))
      (partitionBy W Prod.fst links) (partitionBy W Prod.fst ranks)) := by
    rw [← Multiset.coe_eq_coe, innerJoinLD_multiset flag W hW,
      innerJoinLD_multiset true W hW]
  rw [reducePair_perm (houts.flatMap_right emitContribs)]

theorem joinIter_flag (flag : Bool) (W : Nat) (hW : 0 < W) (n : Nat)
    (links : List LinkedPage) (ranks : List RankedPage) :
    joinIter flag W n links ranks = joinIter true W n links ranks := by
  rw [joinIter, joinIter]
  have houts : (innerJoinLD flag W Prod.fst Prod.fst
      (fun lp rp => (lp.2, rp.2))
      (partitionBy W Prod.fst links) (partitionBy W Prod.fst ranks)).Perm
    (innerJoinLD true W Prod.fst Prod.fst
      (fun lp rp => (lp.2, rp.2))
      (partitionBy W Prod.fst links) (partitionBy W Prod.fst ranks)) := by
    rw [← Multiset.coe_eq_coe, innerJoinLD_multiset flag W hW,
      innerJoinLD_multiset true W hW]
  rw [reducePair_perm (houts.flatMap_right emitContribs)]

/-- The partitioned execution of the `PageRankJoin` loop body agrees with
the flat reference-join execution. -/
theorem joinIter_eq_flat (flag : Bool) (W : Nat) (hW : 0 < W) (n : Nat)
    (links : List LinkedPage) (ranks : List RankedPage) :
    joinIter flag W n links ranks = joinIterFlat n links ranks := by
  rw [joinIter, joinIterFlat]
  have houts : (innerJoinLD flag W Prod.fst Prod.fst
      (fun lp rp => (lp.2, rp.2))
      (partitionBy W Prod.fst links) (partitionBy W Prod.fst ranks)).Perm
    (innerJoinList Prod.fst Prod.fst (fun lp rp => (lp.2, rp.2)) links ranks) := by
    rw [← Multiset.coe_eq_coe, innerJoinLD_multiset flag W hW,
      coe_innerJoinList,
      Multiset.coe_eq_coe.mpr (flatten_partitionBy_perm W hW Prod.fst links),
      Multiset.coe_eq_coe.mpr (flatten_partitionBy_perm W hW Prod.fst ranks)]
  rw [reducePair_perm (houts.flatMap_right emitContribs)]

/-! ## Claim C1 -/

/-- C1: for every pair of input collections, key functions and combine
function, `InnerJoin` with the location-detection flag enabled produces the
same output multiset (ignoring order) as with the flag disabled; in
particular `PageRankJoinSelf` and `PageRankJoin` instantiated with the flag
enabled and disabled compute equal final rank collections, for every links
input and iteration count. -/
theorem claim_innerJoin_location_detection_equiv (W : Nat) (hW : 0 < W) :
    (∀ {α β γ : Type} (ka : α → Nat) (kb : β → Nat) (f : α → β → γ)
        (ps : List (List α)) (qs : List (List β)),
      ((innerJoinLD true W ka kb f ps qs : List γ) : Multiset γ) =
        ((innerJoinLD false W ka kb f ps qs : List γ) : Multiset γ)) ∧
    (∀ (links : List LinkedPage) (iters : Nat),
      pageRankJoinSelf true W links iters =
        pageRankJoinSelf false W links iters) ∧
    (∀ (links : List LinkedPage) (n iters : Nat),
      pageRankJoin true W links n iters = pageRankJoin false W links n iters) := by
  refine ⟨?_, ?_, ?_⟩
  · intro α β γ ka kb f ps qs
    rw [innerJoinLD_multiset true W hW, innerJoinLD_multiset false W hW]
  · intro links iters
    have hfun : joinSelfIter true W links = joinSelfIter false W links :=
      funext (fun r => (joinSelfIter_flag false W hW links r).symm)
    rw [pageRankJoinSelf, pageRankJoinSelf, hfun]
  · intro links n iters
    have hfun : joinIter true W n links = joinIter false W n links :=
      funext (fun r => (joinIter_flag false W hW n links r).symm)
    rw [pageRankJoin, pageRankJoin, hfun]

/-- Witness for C1 at worker count 2 and a concrete two-page graph. -/
theorem claim_innerJoin_location_detection_equiv_witness :
    0 < 2 ∧ pageRankJoinSelf true 2 [(0, [1]), (1, [0])] 2 =
      pageRankJoinSelf false 2 [(0, [1]), (1, [0])] 2 :=
  ⟨by decide,
    (claim_innerJoin_location_detection_equiv 2 (by decide)).2.1
      [(0, [1]), (1, [0])] 2⟩

/-! ## Summing contributions -/

/-- The contributions of one link/rank record that land on page `i` sum to
`(multiplicity of i among the targets) * (rank / outdegree)`. -/
theorem emitContribs_filter_sum (p : List PageId × Rank) (i : PageId) :
    (((emitContribs p).filter (fun c => c.1 = i)).map Prod.snd).sum =
      ((p.1.filter (fun t => t = i)).length : ℚ) * (p.2 / (p.1.length : ℚ)) := by
  rw [emitContribs]
  by_cases h : p.1.length = 0
  · rw [if_pos h]
    have : p.1 = [] := List.length_eq_zero.mp h
    simp [this]
  · rw [if_neg h, List.filter_map]
    have hcomp : ((fun c : PageId × Rank => decide (c.1 = i)) ∘
        (fun tgt => (tgt, p.2 / (p.1.length : ℚ)))) = (fun t => decide (t = i)) := by
      funext t
      rfl
    rw [hcomp, List.map_map]
    have hconst : (Prod.snd ∘ fun tgt : PageId => (tgt, p.2 / (p.1.length : ℚ))) =
        (fun _ : PageId => p.2 / (p.1.length : ℚ)) := rfl
    rw [hconst]
    have hrepl : (List.map (fun _ : PageId => p.2 / (p.1.length : ℚ))
        (p.1.filter (fun t => t = i))).sum =
        (p.1.filter (fun t => t = i)).length • (p.2 / (p.1.length : ℚ)) := by
      simp [List.map_const']
    rw [hrepl, nsmul_eq_mul]

/-- The total contribution landing on page `i` from a list of link/rank
records: filtering the flat-mapped contribution records by target `i` and
summing equals the direct per-record sum. -/
theorem contribs_filter_sum (outs : List (List PageId × Rank)) (i : PageId) :
    (((outs.flatMap emitContribs).filter (fun c => c.1 = i)).map Prod.snd).sum =
      (outs.map (fun p => ((p.1.filter (fun t => t = i)).length : ℚ) *
        (p.2 / (p.1.length : ℚ)))).sum := by
  induction outs with
  | nil => simp
  | cons p t ih =>
    rw [List.flatMap_cons, List.filter_append, List.map_append,
      List.sum_append, ih, List.map_cons, List.sum_cons,
      emitContribs_filter_sum]

/-- Entry `i` of one index-based iteration is
`dampening * rawTotal + (1 - dampening) / n`. -/
theorem pageRankIter_getD (links : List (List PageId)) (n : Nat)
    (ranks : List Rank) (i : PageId) (h : i < n) :
    (pageRankIter links n ranks).getD i 0 =
      dampening * rawTotalIndex links ranks i + (1 - dampening) / (n : ℚ) := by
  rw [pageRankIter, reduceToIndexSum, List.map_map,
    List.getD_eq_getElem _ _ (by simpa using h), List.getElem_map,
    List.getElem_range, Function.comp_apply, contribs_filter_sum,
    rawTotalIndex]

/-- The length of one index-based iteration's output is `n`. -/
theorem pageRankIter_length (links : List (List PageId)) (n : Nat)
    (ranks : List Rank) : (pageRankIter links n ranks).length = n := by
  simp [pageRankIter, reduceToIndexSum]

/-- The length of the index-based rank collection is `n` at every iteration
count. -/
theorem pageRank_length (links : List (List PageId)) (n : Nat) :
    ∀ k, (pageRank links n k).length = n
  | 0 => by simp [pageRank, initRanks]
  | k + 1 => by
    rw [pageRank, Function.iterate_succ_apply']
    exact pageRankIter_length links n _

theorem sum_flatMap_q {α : Type} (l : List α) (F : α → List ℚ) :
    (l.flatMap F).sum = (l.map (fun x => (F x).sum)).sum := by
  induction l with
  | nil => simp
  | cons a t ih =>
    rw [List.flatMap_cons, List.sum_append, ih, List.map_cons, List.sum_cons]

/-- The joined link/rank records of the flat reference join contribute to
page `i` exactly `rawTotalJoin`. -/
theorem flatJoin_outs_sum (links : List LinkedPage) (ranks : List RankedPage)
    (i : PageId) :
    ((innerJoinList Prod.fst Prod.fst (fun lp rp => (lp.2, rp.2)) links
        ranks).map
      (fun p => ((p.1.filter (fun t => t = i)).length : ℚ) *
        (p.2 / (p.1.length : ℚ)))).sum = rawTotalJoin links ranks i := by
  rw [innerJoinList, List.map_flatMap, sum_flatMap_q, rawTotalJoin]
  congr 1
  apply List.map_congr_left
  intro lp _
  rw [List.map_map]
  have hcomp : ((fun p : List PageId × Rank =>
      ((p.1.filter (fun t => t = i)).length : ℚ) * (p.2 / (p.1.length : ℚ))) ∘
        (fun rp : RankedPage => (lp.2, rp.2))) =
      (fun rp : RankedPage =>
        (((lp.2.filter (fun t => t = i)).length : ℚ) / (lp.2.length : ℚ)) *
          rp.2) := by
    funext rp
    show ((lp.2.filter (fun t => t = i)).length : ℚ) *
      (rp.2 / (lp.2.length : ℚ)) = _
    ring
  rw [hcomp, List.sum_map_mul_left]
  have : ((ranks.filter (fun rp => rp.1 = lp.1)).map (fun rp : RankedPage => rp.2)) =
      ((ranks.filter (fun rp => rp.1 = lp.1)).map Prod.snd) := rfl
  rw [this]
  ring

/-- The outputs of the engine's partitioned join inside a join-variant
iteration are a permutation of the flat reference join's outputs. -/
theorem joinLD_outs_perm (flag : Bool) (W : Nat) (hW : 0 < W)
    (links : List LinkedPage) (ranks : List RankedPage) :
    (innerJoinLD flag W Prod.fst Prod.fst (fun lp rp => (lp.2, rp.2))
      (partitionBy W Prod.fst links) (partitionBy W Prod.fst ranks)).Perm
    (innerJoinList Prod.fst Prod.fst (fun lp rp => (lp.2, rp.2)) links ranks) := by
  rw [← Multiset.coe_eq_coe, innerJoinLD_multiset flag W hW,
    coe_innerJoinList,
    Multiset.coe_eq_coe.mpr (flatten_partitionBy_perm W hW Prod.fst links),
    Multiset.coe_eq_coe.mpr (flatten_partitionBy_perm W hW Prod.fst ranks)]

/-! ## Claim C2 -/

/-- C2 fails as stated: the self-join variant applies
`dampening * rawTotal + (1 - dampening)` with no division by `num_pages`
(page_rank.hpp:208-212).  On the two-page cycle, after one iteration page
0's rank is `1`, but the claimed formula gives
`0.85 * 1 + 0.15 / 2 = 0.925`. -/
theorem claim_dampening_formula_counterexample :
    pageRankJoinSelf true 1 [(0, [1]), (1, [0])] 1 = [(0, 1), (1, 1)] ∧
    rawTotalJoin [(0, [1]), (1, [0])] [(0, 1), (1, 1)] 0 = 1 ∧
    dampening * 1 + (1 - dampening) / 2 ≠ (1 : ℚ) := by
  refine ⟨?_, ?_, ?_⟩
  · norm_num [pageRankJoinSelf, joinSelfIter, innerJoinLD, coPartitioned,
      partitionBy, localPartitionJoin, hashInnerJoin, innerJoinList,
      sortedKeys, reducePair, emitContribs, dampening,
      List.filter_cons, List.filter_nil, List.filter_append, List.flatMap,
      List.zip, List.zipWith, (show List.range 1 = [0] from rfl),
      (show List.range 2 = [0, 1] from rfl)]
  · norm_num [rawTotalJoin, List.filter_cons, List.filter_nil]
  · norm_num [dampening]

/-- C2 (amended): the index-based and join-based variants compute every
page's new rank as `dampening * rawTotal + (1 - dampening) / num_pages`
with `dampening = 0.85`; the self-join variant computes
`dampening * rawTotal + (1 - dampening)` (it carries ranks scaled by
`num_pages`, initialised to `1.0`). -/
theorem claim_dampening_formula_amended :
    (∀ (links : List (List PageId)) (n : Nat) (ranks : List Rank) (i : PageId),
      i < n →
      (pageRankIter links n ranks).getD i 0 =
        dampening * rawTotalIndex links ranks i + (1 - dampening) / (n : ℚ)) ∧
    (∀ (flag : Bool) (W n : Nat), 0 < W →
      ∀ (links : List LinkedPage) (ranks : List RankedPage),
      ∀ c ∈ joinIter flag W n links ranks,
        c.2 = dampening * rawTotalJoin links ranks c.1 +
          (1 - dampening) / (n : ℚ)) ∧
    (∀ (flag : Bool) (W : Nat), 0 < W →
      ∀ (links : List LinkedPage) (ranks : List RankedPage),
      ∀ c ∈ joinSelfIter flag W links ranks,
        c.2 = dampening * rawTotalJoin links ranks c.1 + (1 - dampening)) := by
  refine ⟨fun links n ranks i h => pageRankIter_getD links n ranks i h, ?_, ?_⟩
  · intro flag W n hW links ranks c hc
    rw [joinIter_eq_flat flag W hW] at hc
    rw [joinIterFlat] at hc
    rcases List.mem_map.mp hc with ⟨q, hq, rfl⟩
    rcases List.mem_map.mp hq with ⟨k, _, rfl⟩
    show dampening * _ + _ = _
    rw [contribs_filter_sum, flatJoin_outs_sum]
  · intro flag W hW links ranks c hc
    rw [joinSelfIter,
      reducePair_perm ((joinLD_outs_perm flag W hW links ranks).flatMap_right
        emitContribs)] at hc
    rcases List.mem_map.mp hc with ⟨q, hq, rfl⟩
    rcases List.mem_map.mp hq with ⟨k, _, rfl⟩
    show dampening * _ + _ = _
    rw [contribs_filter_sum, flatJoin_outs_sum]

/-- Witness for the amended C2 at a concrete one-page graph. -/
theorem claim_dampening_formula_amended_witness :
    (0 : Nat) < 1 ∧
    (pageRankIter [[0]] 1 [(1 : ℚ)]).getD 0 0 =
      dampening * rawTotalIndex [[0]] [(1 : ℚ)] 0 + (1 - dampening) / (1 : ℚ) :=
  ⟨by decide, claim_dampening_formula_amended.1 [[0]] 1 [(1 : ℚ)] 0 (by decide)⟩

/-! ## Claim C3: mass conservation of the index-based shape -/

theorem sum_range_ite (t : Nat) (x : ℚ) :
    ∀ n, t < n →
      ((List.range n).map (fun i => if t = i then x else 0)).sum = x
  | 0, h => absurd h (Nat.not_lt_zero t)
  | n + 1, h => by
    rw [List.range_succ, List.map_append, List.sum_append]
    by_cases hc : t < n
    · rw [sum_range_ite t x n hc]
      simp [Nat.ne_of_lt hc]
    · have ht : t = n := by omega
      subst ht
      have hz : ((List.range t).map (fun i => if t = i then x else 0)).sum = 0 := by
        apply List.sum_eq_zero
        intro y hy
        rcases List.mem_map.mp hy with ⟨i, hi, rfl⟩
        rw [if_neg (Nat.ne_of_gt (List.mem_range.mp hi))]
      rw [hz]
      simp

/-- Over a key universe covering all its elements, the multiplicities of a
target list sum to its length. -/
theorem sum_counts (n : Nat) :
    ∀ ol : List PageId, (∀ t ∈ ol, t < n) →
      ((List.range n).map
        (fun i => ((ol.filter (fun t => t = i)).length : ℚ))).sum =
        (ol.length : ℚ)
  | [], _ => by simp
  | t :: tl, h => by
    have hmap : ∀ i : Nat,
        (((t :: tl).filter (fun x => x = i)).length : ℚ) =
          (if t = i then (1 : ℚ) else 0) +
            ((tl.filter (fun x => x = i)).length : ℚ) := by
      intro i
      rw [List.filter_cons]
      by_cases hc : t = i
      · rw [if_pos (by simpa using hc), if_pos hc, List.length_cons]
        push_cast
        ring
      · rw [if_neg (by simpa using hc), if_neg hc, zero_add]
    have hcong : (List.range n).map
        (fun i => (((t :: tl).filter (fun x => x = i)).length : ℚ)) =
        (List.range n).map (fun i => (if t = i then (1 : ℚ) else 0) +
          ((tl.filter (fun x => x = i)).length : ℚ)) :=
      List.map_congr_left (fun i _ => hmap i)
    rw [hcong, List.sum_map_add, sum_range_ite t 1 n (h t (List.mem_cons_self t tl)),
      sum_counts n tl (fun x hx => h x (List.mem_cons_of_mem t hx)),
      List.length_cons]
    push_cast
    ring

/-- Exchanging a sum over the key range with a sum over records. -/
theorem sum_swap_range {α : Type} (n : Nat) (xs : List α) (f : Nat → α → ℚ) :
    ((List.range n).map (fun i => (xs.map (f i)).sum)).sum =
      (xs.map (fun x => ((List.range n).map (fun i => f i x)).sum)).sum := by
  induction xs with
  | nil => simp
  | cons a t ih =>
    have hcong : (List.range n).map (fun i => ((a :: t).map (f i)).sum) =
        (List.range n).map (fun i => f i a + (t.map (f i)).sum) := by
      apply List.map_congr_left
      intro i _
      rw [List.map_cons, List.sum_cons]
    rw [hcong, List.sum_map_add, ih, List.map_cons, List.sum_cons]

/-- One index-based iteration conserves the total rank mass: starting from
total mass `m`, the new total is `dampening * m + (1 - dampening)`, provided
the link table has one record per page, no page is dangling, and all targets
are in range. -/
theorem pageRankIter_sum (links : List (List PageId)) (n : Nat) (hn : 0 < n)
    (hlen : links.length = n) (hne : ∀ ol ∈ links, ol ≠ [])
    (htg : ∀ ol ∈ links, ∀ t ∈ ol, t < n) (ranks : List Rank)
    (hrlen : ranks.length = n) :
    (pageRankIter links n ranks).sum =
      dampening * ranks.sum + (1 - dampening) := by
  rw [pageRankIter, reduceToIndexSum, List.map_map]
  have hcomp : ((fun r => dampening * r + (1 - dampening) / (n : ℚ)) ∘
      (fun i => (((links.zip ranks).flatMap emitContribs).filter
        (fun c => c.1 = i)).map Prod.snd |>.sum)) =
      (fun i => dampening * ((((links.zip ranks).flatMap emitContribs).filter
        (fun c => c.1 = i)).map Prod.snd |>.sum) + (1 - dampening) / (n : ℚ)) :=
    rfl
  rw [hcomp]
  have hsplit : ((List.range n).map
      (fun i => dampening * ((((links.zip ranks).flatMap emitContribs).filter
        (fun c => c.1 = i)).map Prod.snd |>.sum) +
        (1 - dampening) / (n : ℚ))).sum =
      dampening * ((List.range n).map
        (fun i => (((links.zip ranks).flatMap emitContribs).filter
          (fun c => c.1 = i)).map Prod.snd |>.sum)).sum +
        (n : ℚ) * ((1 - dampening) / (n : ℚ)) := by
    rw [List.sum_map_add, List.sum_map_mul_left]
    congr 1
    simp [List.map_const']
  rw [hsplit]
  have hmass : ((List.range n).map
      (fun i => (((links.zip ranks).flatMap emitContribs).filter
        (fun c => c.1 = i)).map Prod.snd |>.sum)).sum = ranks.sum := by
    have h1 : (List.range n).map
        (fun i => (((links.zip ranks).flatMap emitContribs).filter
          (fun c => c.1 = i)).map Prod.snd |>.sum) =
        (List.range n).map
          (fun i => ((links.zip ranks).map
            (fun p => ((p.1.filter (fun t => t = i)).length : ℚ) *
              (p.2 / (p.1.length : ℚ)))).sum) :=
      List.map_congr_left (fun i _ => contribs_filter_sum (links.zip ranks) i)
    rw [h1, sum_swap_range]
    have h2 : (links.zip ranks).map
        (fun p => ((List.range n).map
          (fun i => ((p.1.filter (fun t => t = i)).length : ℚ) *
            (p.2 / (p.1.length : ℚ)))).sum) =
        (links.zip ranks).map Prod.snd := by
      apply List.map_congr_left
      intro p hp
      have hpl : p.1 ∈ links := (List.of_mem_zip hp).1
      have hlenne : ((p.1.length : ℚ)) ≠ 0 := by
        have := hne p.1 hpl
        simpa [List.length_eq_zero] using this
      rw [List.sum_map_mul_right, sum_counts n p.1 (htg p.1 hpl)]
      field_simp
    rw [h2, List.map_snd_zip links ranks (by omega)]
  rw [hmass]
  have hnq : (n : ℚ) ≠ 0 := Nat.cast_ne_zero.mpr (by omega)
  field_simp

/-- C3 fails as stated only in the degenerate zero-page run (the generated
mode accepts a page count of `0`): with no pages, "every page has at least
one outgoing link" holds vacuously but the rank sum is `0`, not `1`,
already after Init. -/
theorem claim_mass_conservation_counterexample :
    pageRank [] 0 0 = [] ∧ (pageRank [] 0 0).sum ≠ 1 := by
  constructor
  · rfl
  · intro h
    rw [show pageRank [] 0 0 = [] from rfl] at h
    norm_num at h

/-- C3 (amended): for every run of the index-based PageRank with at least
one page — the link table holding one record per page, every page having at
least one outgoing link, and all link targets lying in `[0, num_pages)` —
after Init and after each iteration the ranks of all `num_pages` pages sum
to exactly `1` (in exact arithmetic; the floating-point run matches up to
rounding). -/
theorem claim_mass_conservation (links : List (List PageId)) (n : Nat)
    (hn : 0 < n) (hlen : links.length = n) (hne : ∀ ol ∈ links, ol ≠ [])
    (htg : ∀ ol ∈ links, ∀ t ∈ ol, t < n) :
    ∀ k, (pageRank links n k).sum = 1
  | 0 => by
    rw [pageRank, Function.iterate_zero_apply, initRanks, List.sum_replicate,
      nsmul_eq_mul]
    have hnq : (n : ℚ) ≠ 0 := Nat.cast_ne_zero.mpr (by omega)
    field_simp
  | k + 1 => by
    rw [pageRank, Function.iterate_succ_apply']
    show (pageRankIter links n (pageRank links n k)).sum = 1
    rw [pageRankIter_sum links n hn hlen hne htg _
        (pageRank_length links n k),
      claim_mass_conservation links n hn hlen hne htg k]
    norm_num

/-- Witness for the amended C3 on the concrete two-page cycle, three
iterations. -/
theorem claim_mass_conservation_witness :
    0 < 2 ∧ ([[1], [0]] : List (List PageId)).length = 2 ∧
      (pageRank [[1], [0]] 2 3).sum = 1 :=
  ⟨by decide, by decide,
    claim_mass_conservation [[1], [0]] 2 (by decide) (by decide)
      (by decide) (by decide) 3⟩

/-! ## Claim C6: Scenario A -/

/-- C6 fails as stated: on the graph (0→1),(1→2),(2→0),(3→0) with one
index-based iteration, page 0 receives *two* incoming contributions (from
pages 2 and 3), so its rank is `0.85 * (1/2) + 0.0375 = 0.4625`, not the
claimed `0.85 * (1/4) + 0.0375 = 0.25`; pages 1 and 2 match the claim and
page 3 receives only the dampening floor. -/
theorem claim_scenarioA_counterexample :
    (pageRank (groupToIndexLinks [(0, 1), (1, 2), (2, 0), (3, 0)] 4) 4 1).getD
      0 0 = 37 / 80 ∧
    dampening * (1 / 4) + (1 - dampening) / 4 = 1 / 4 ∧
    (37 : ℚ) / 80 ≠ 1 / 4 := by
  refine ⟨?_, ?_, ?_⟩
  · norm_num [pageRank, pageRankIter, initRanks, groupToIndexLinks,
      reduceToIndexSum, emitContribs, dampening, List.range_succ,
      List.filter_cons, List.filter_nil, List.replicate, List.zip,
      List.zipWith, List.flatMap]
  · norm_num [dampening]
  · norm_num

/-- C6 (amended): on the 4-page graph with edges (0,1),(1,2),(2,0),(3,0),
after one index-based iteration page 3 receives no incoming contribution and
holds exactly the dampening floor `(1-d)/4 = 0.0375`; pages 1 and 2 each
receive one contribution of `1/4` and hold `0.85 * (1/4) + 0.0375 = 0.25`;
page 0 receives two contributions summing `1/2` and holds
`0.85 * (1/2) + 0.0375 = 0.4625`. -/
theorem claim_scenarioA_amended :
    pageRank (groupToIndexLinks [(0, 1), (1, 2), (2, 0), (3, 0)] 4) 4 1 =
      [dampening * (1 / 2) + (1 - dampening) / 4,
       dampening * (1 / 4) + (1 - dampening) / 4,
       dampening * (1 / 4) + (1 - dampening) / 4,
       (1 - dampening) / 4] := by
  norm_num [pageRank, pageRankIter, initRanks, groupToIndexLinks,
    reduceToIndexSum, emitContribs, dampening, List.range_succ,
    List.filter_cons, List.filter_nil, List.replicate, List.zip,
    List.zipWith, List.flatMap]

/-! ## Claim C7: the FlatMap contribution stage -/

/-- C7: an input record with an empty outgoing-link list emits zero
contribution records (not an error: the guard returns before the division
`rank / size` is reached, so the division is never evaluated with divisor
zero — in the embedding the division term occurs only in the nonempty
branch); a record with `k > 0` links and rank `r` emits exactly `k`
records, one per target in order, each valued `r / k`. -/
theorem claim_flatmap_contribs (ol : List PageId) (r : Rank) (hol : ol ≠ []) :
    (∀ r0 : Rank, emitContribs ([], r0) = []) ∧
    emitContribs (ol, r) = ol.map (fun t => (t, r / (ol.length : ℚ))) ∧
    (emitContribs (ol, r)).length = ol.length ∧
    (emitContribs (ol, r)).map Prod.fst = ol ∧
    ∀ c ∈ emitContribs (ol, r), c.2 = r / (ol.length : ℚ) := by
  have hlen : ol.length ≠ 0 := by simpa [List.length_eq_zero] using hol
  have hemit : emitContribs (ol, r) =
      ol.map (fun t => (t, r / (ol.length : ℚ))) := by
    rw [emitContribs, if_neg hlen]
  refine ⟨fun r0 => rfl, hemit, ?_, ?_, ?_⟩
  · rw [hemit, List.length_map]
  · rw [hemit, List.map_map]
    exact List.map_id ol
  · intro c hc
    rw [hemit] at hc
    rcases List.mem_map.mp hc with ⟨t, _, rfl⟩
    rfl

/-- Witness for C7 at a concrete two-target record. -/
theorem claim_flatmap_contribs_witness :
    ([2, 3] : List PageId) ≠ [] ∧
    (emitContribs ([2, 3], (1 : ℚ) / 2)).length = ([2, 3] : List PageId).length :=
  ⟨by decide, (claim_flatmap_contribs [2, 3] ((1 : ℚ) / 2) (by decide)).2.2.1⟩

/-! ## Claim C5: output line format -/

/-- C5 fails in `RunPageRankGenerated`: its `ZipWithIndex` lambda
(page_rank_run.cpp:226) is declared `(const PageId& p, const Rank& r)`, but
`ZipWithIndex` passes `(element, index)` — as the lambda of
`RunPageRankEdgePerLine` (page_rank_run.cpp:99) and the comment
"generate index numbers: 0...num_pages-1" show — so the rank (a `double`)
is truncated into the `size_t` parameter `p` and the index is converted to
`double` and printed as the rank.  On the initial ranks `[1/2, 1/2]` of a
two-page graph the generated mode therefore writes the field pairs
`(0, 0)` and `(0, 1)` — truncated rank, then index — instead of the
intended `(0, 1/2)` and `(1, 1/2)` that the other modes write. -/
theorem claim_output_line_format :
    generatedOutput (pageRank [[1], []] 2 0) =
      [OutLine.mk 0 0, OutLine.mk 0 1] ∧
    edgePerLineOutput (pageRank [[1], []] 2 0) =
      [OutLine.mk 0 (1 / 2), OutLine.mk 1 (1 / 2)] ∧
    joinOutput [(0, 1 / 2), (1, 1 / 2)] =
      [OutLine.mk 0 (1 / 2), OutLine.mk 1 (1 / 2)] ∧
    generatedOutput (pageRank [[1], []] 2 0) ≠
      edgePerLineOutput (pageRank [[1], []] 2 0) := by
  have hranks : pageRank [[1], []] 2 0 = [1 / 2, 1 / 2] := by
    norm_num [pageRank, initRanks, List.replicate]
  have hfloor : ((1 : ℚ) / 2).floor = 0 := by
    exact (by norm_num : ⌊(1 : ℚ) / 2⌋ = 0)
  refine ⟨?_, ?_, ?_, ?_⟩
  · rw [hranks]
    norm_num [generatedOutput, zipWithIndex, ratTruncToNat, hfloor,
      List.zip, List.zipWith, (show List.range 2 = [0, 1] from rfl)]
  · rw [hranks]
    norm_num [edgePerLineOutput, zipWithIndex, List.zip, List.zipWith,
      (show List.range 2 = [0, 1] from rfl)]
  · norm_num [joinOutput]
  · rw [hranks]
    norm_num [generatedOutput, edgePerLineOutput, zipWithIndex,
      ratTruncToNat, hfloor, List.zip, List.zipWith,
      (show List.range 2 = [0, 1] from rfl), OutLine.mk.injEq]

/-! ## Claim C9: the edge-line parser -/

theorem isDigitC_bounds {c : Char} (h : isDigitC c = true) :
    48 ≤ c.toNat ∧ c.toNat ≤ 57 := by
  simpa [isDigitC, Bool.and_eq_true] using h

theorem isSpaceC_of_digit {c : Char} (h : isDigitC c = true) :
    isSpaceC c = false := by
  obtain ⟨h1, h2⟩ := isDigitC_bounds h
  simp only [isSpaceC, Bool.or_eq_false_iff, decide_eq_false_iff_not]
  omega

theorem digit_ne_plus {c : Char} (h : isDigitC c = true) : ¬ c = '+' := by
  intro hc
  obtain ⟨h1, _⟩ := isDigitC_bounds h
  rw [hc] at h1
  exact absurd h1 (by decide)

theorem digit_ne_minus {c : Char} (h : isDigitC c = true) : ¬ c = '-' := by
  intro hc
  obtain ⟨h1, _⟩ := isDigitC_bounds h
  rw [hc] at h1
  exact absurd h1 (by decide)

theorem digitsVal_append (r : List Char)
    (hr : (r.head?.map isDigitC).getD false = false) :
    ∀ (a : List Char), a.all isDigitC = true → ∀ acc : Nat,
      digitsVal acc (a ++ r) =
        (a.foldl (fun x c => x * 10 + (c.toNat - 48)) acc, r)
  | [], _, acc => by
    cases r with
    | nil => rfl
    | cons c cs =>
      have hc : isDigitC c = false := by simpa using hr
      simp [digitsVal, hc]
  | c :: cs, hall, acc => by
    have h1 : isDigitC c = true ∧ cs.all isDigitC = true := by simpa using hall
    simp only [List.cons_append, digitsVal, h1.1, if_true, List.foldl_cons]
    exact digitsVal_append r hr cs h1.2 _

/-- `strtoul` on a nonempty all-digit prefix whose value fits in an
`unsigned long`, followed by a non-digit remainder: the conversion consumes
exactly the prefix and returns its decimal value. -/
theorem strtoul10_digits (a r : List Char) (ha : a ≠ [])
    (hall : a.all isDigitC = true)
    (hr : (r.head?.map isDigitC).getD false = false)
    (hlt : natOfDigits a < ulongMod) :
    strtoul10 (a ++ r) = (natOfDigits a, r) := by
  obtain ⟨c, cs, rfl⟩ := List.exists_cons_of_ne_nil ha
  have h1 : isDigitC c = true ∧ cs.all isDigitC = true := by simpa using hall
  have hsp : isSpaceC c = false := isSpaceC_of_digit h1.1
  have hplus : ¬ c = '+' := digit_ne_plus h1.1
  have hminus : ¬ c = '-' := digit_ne_minus h1.1
  have hdv := digitsVal_append r hr (c :: cs) hall 0
  rw [strtoul10]
  simp only [List.cons_append, List.dropWhile_cons, hsp, Bool.false_eq_true,
    if_false, List.head?_cons, Option.map_some, Option.getD_some,
    Option.some.injEq, hplus, hminus,
    Bool.or_self, Bool.false_eq_true, if_false, h1.1, if_true]
  have hfix : (if decide False = true then (c :: (cs ++ r)).tail
      else c :: (cs ++ r)) = c :: (cs ++ r) := by simp
  rw [hfix, show c :: (cs ++ r) = (c :: cs) ++ r from rfl, hdv]
  have hcond : (Option.map isDigitC ((c :: cs) ++ r).head?).getD false = true := by
    simp [h1.1]
  rw [if_pos hcond,
    if_neg (show ¬ (List.foldl (fun x c => x * 10 + (c.toNat - 48)) 0
      (c :: cs) ≥ ulongMod) from not_le.mpr hlt)]
  rfl

/-- C9 fails as stated: the parser is built from two `strtoul` calls, which
skip leading whitespace and accept sign characters and empty conversions,
so acceptance is strictly wider than "two positive integers separated by a
single space with nothing trailing".  A single-space line parses as the
edge `(0, 0)` (both conversions are empty, leaving `endptr` at the space
and at the terminator respectively), and a double space between the numbers
is accepted because the second `strtoul` skips it. -/
theorem claim_line_parser_counterexample :
    pageRankLineParser [' '] = some (0, 0) ∧ specLineOk [' '] = false ∧
    pageRankLineParser ['1', ' ', ' ', '2'] = some (1, 2) ∧
    specLineOk ['1', ' ', ' ', '2'] = false := by decide

/-- C9 (amended): every line of the claimed form — a nonempty digit string,
one space, a nonempty digit string, nothing else, both values positive —
is accepted, with the two decimal values returned (exactly, whenever they
fit in the 64-bit `unsigned long`).  Acceptance is however strictly wider
(see the counterexample): `strtoul` semantics also admit leading
whitespace, `+`/`-` signs, additional whitespace before the second number,
zero values, and empty conversions, and any other line aborts the run. -/
theorem claim_line_parser_amended (s : List Char) (h : specLineOk s = true)
    (h1 : natOfDigits (s.takeWhile (fun c => c ≠ ' ')) < ulongMod)
    (h2 : natOfDigits ((s.dropWhile (fun c => c ≠ ' ')).tail) < ulongMod) :
    pageRankLineParser s =
      some (natOfDigits (s.takeWhile (fun c => c ≠ ' ')),
        natOfDigits ((s.dropWhile (fun c => c ≠ ' ')).tail)) := by
  rcases hdw : s.dropWhile (fun c => c ≠ ' ') with _ | ⟨c0, b⟩
  · rw [specLineOk] at h
    simp only [hdw] at h
    exact absurd h (by decide)
  rw [specLineOk] at h
  simp only [hdw] at h
  by_cases hc0 : c0 = ' '
  case neg =>
    revert h
    split
    next heq =>
      rw [List.cons.injEq] at heq
      exact fun h => absurd heq.1 hc0
    next => exact fun h => absurd h (by decide)
  subst hc0
  have hred : (match (' ' :: b : List Char) with
    | ' ' :: b =>
      !(s.takeWhile (fun c => c ≠ ' ')).isEmpty && !b.isEmpty &&
        (s.takeWhile (fun c => c ≠ ' ')).all isDigitC && b.all isDigitC &&
        decide (0 < natOfDigits (s.takeWhile (fun c => c ≠ ' '))) &&
        decide (0 < natOfDigits b)
    | _ => false) = (!(s.takeWhile (fun c => c ≠ ' ')).isEmpty && !b.isEmpty &&
        (s.takeWhile (fun c => c ≠ ' ')).all isDigitC && b.all isDigitC &&
        decide (0 < natOfDigits (s.takeWhile (fun c => c ≠ ' '))) &&
        decide (0 < natOfDigits b)) := rfl
  rw [hred] at h
  simp only [Bool.and_eq_true, Bool.not_eq_true', List.isEmpty_eq_false,
    decide_eq_true_eq] at h
  obtain ⟨⟨⟨⟨⟨hane, hbne⟩, halla⟩, hallb⟩, hpa⟩, hpb⟩ := h
  have hs : s.takeWhile (fun c => c ≠ ' ') ++ (' ' :: b) = s := by
    rw [← hdw]
    exact List.takeWhile_append_dropWhile (fun c => decide (c ≠ ' ')) s
  have hd1 : isDigitC ' ' = false := by decide
  have hr1 : (((' ' :: b).head?).map isDigitC).getD false = false := by
    simp [hd1]
  have hst1 : strtoul10 s =
      (natOfDigits (s.takeWhile (fun c => c ≠ ' ')), ' ' :: b) := by
    conv_lhs => rw [← hs]
    exact strtoul10_digits _ _ hane halla hr1 h1
  have hr2 : ((([] : List Char).head?).map isDigitC).getD false = false := rfl
  have h2b : natOfDigits b < ulongMod := by
    rw [hdw] at h2
    exact h2
  have hst2 : strtoul10 b = (natOfDigits b, []) := by
    have := strtoul10_digits b [] hbne hallb hr2 h2b
    rwa [List.append_nil] at this
  rw [pageRankLineParser]
  simp only [hst1, hst2, hdw, List.tail_cons]
  simp

/-- Witness for the amended C9 on the line `"12 34"`. -/
theorem claim_line_parser_amended_witness :
    specLineOk ['1', '2', ' ', '3', '4'] = true ∧
    pageRankLineParser ['1', '2', ' ', '3', '4'] =
      some (natOfDigits ((['1', '2', ' ', '3', '4'] : List Char).takeWhile
          (fun c => c ≠ ' ')),
        natOfDigits (((['1', '2', ' ', '3', '4'] : List Char).dropWhile
          (fun c => c ≠ ' ')).tail)) :=
  ⟨by decide,
    claim_line_parser_amended ['1', '2', ' ', '3', '4'] (by decide)
      (by decide) (by decide)⟩

/-! ## Claim C10: num_pages bounds every index key -/

theorem le_foldl_max_init : ∀ (l : List Nat) (b : Nat), b ≤ l.foldl max b
  | [], _ => Nat.le_refl _
  | x :: t, b =>
    Nat.le_trans (Nat.le_max_left b x) (le_foldl_max_init t (max b x))

theorem le_foldl_max_mem :
    ∀ (l : List Nat) (b x : Nat), x ∈ l → x ≤ l.foldl max b
  | [], _, _, hx => absurd hx (List.not_mem_nil _)
  | y :: t, b, x, hx => by
    rcases List.mem_cons.mp hx with rfl | hmem
    · exact Nat.le_trans (Nat.le_max_right b x) (le_foldl_max_init t _)
    · exact le_foldl_max_mem t _ x hmem

/-- Every page id occurring in an edge is below `numPagesOf`. -/
theorem edge_lt_numPagesOf {edges : List (PageId × PageId)}
    {e : PageId × PageId} (he : e ∈ edges) :
    e.1 < numPagesOf edges ∧ e.2 < numPagesOf edges := by
  have h1 : max e.1 e.2 ∈ edges.map (fun e => max e.1 e.2) :=
    List.mem_map.mpr ⟨e, he, rfl⟩
  have h2 := le_foldl_max_mem (edges.map (fun e => max e.1 e.2)) 0 _ h1
  rw [numPagesOf]
  exact ⟨Nat.lt_succ_of_le (Nat.le_trans (Nat.le_max_left _ _) h2),
    Nat.lt_succ_of_le (Nat.le_trans (Nat.le_max_right _ _) h2)⟩

/-- C10: with `num_pages` computed as one plus the maximum page id of any
parsed edge, every key fed to the index-partitioned operators is in
`[0, num_pages)`: the `GroupToIndex` keys (edge sources), every target
stored in the grouped adjacency lists, and — for every rank collection, so
in every iteration — every key of a contribution record fed to
`ReduceToIndex`.  Hence the key-range fatal error is unreachable for any
successfully parsed input. -/
theorem claim_index_keys_in_range (edges : List (PageId × PageId)) :
    (∀ e ∈ edges, e.1 < numPagesOf edges ∧ e.2 < numPagesOf edges) ∧
    (∀ ol ∈ groupToIndexLinks edges (numPagesOf edges), ∀ t ∈ ol,
      t < numPagesOf edges) ∧
    (∀ ranks : List Rank,
      ∀ c ∈ ((groupToIndexLinks edges (numPagesOf edges)).zip
        ranks).flatMap emitContribs, c.1 < numPagesOf edges) := by
  have hol : ∀ ol ∈ groupToIndexLinks edges (numPagesOf edges), ∀ t ∈ ol,
      t < numPagesOf edges := by
    intro ol hol t ht
    rw [groupToIndexLinks] at hol
    rcases List.mem_map.mp hol with ⟨i, _, rfl⟩
    rcases List.mem_map.mp ht with ⟨e, he, rfl⟩
    exact (edge_lt_numPagesOf (List.mem_of_mem_filter he)).2
  refine ⟨fun e he => edge_lt_numPagesOf he, hol, ?_⟩
  intro ranks c hc
  rcases List.mem_flatMap.mp hc with ⟨p, hp, hcp⟩
  have hp1 : p.1 ∈ groupToIndexLinks edges (numPagesOf edges) :=
    (List.of_mem_zip hp).1
  rw [emitContribs] at hcp
  by_cases hz : p.1.length = 0
  · rw [if_pos hz] at hcp
    exact absurd hcp (List.not_mem_nil c)
  · rw [if_neg hz] at hcp
    rcases List.mem_map.mp hcp with ⟨t, ht, rfl⟩
    exact hol p.1 hp1 t ht

/-! ## Claim C8: the synthetic graph generator -/

theorem genOut_aux (n : Nat) (hn : 0 < n) :
    ∀ (ws : List Nat) (acc : List PageId × Nat), (∀ t ∈ acc.1, t < n) →
      ∀ t ∈ (ws.foldl (fun (acc : List PageId × Nat) _ =>
        (acc.1 ++ [lcgNext acc.2 % n], lcgNext acc.2)) acc).1, t < n
  | [], _, hacc => hacc
  | w :: ws, acc, hacc => by
    rw [List.foldl_cons]
    apply genOut_aux n hn ws
    intro t ht
    rcases List.mem_append.mp ht with h | h
    · exact hacc t h
    · rw [List.mem_singleton.mp h]
      exact Nat.mod_lt _ hn

theorem generateOutgoing_targets (gg : ZipfGraphGen) (n : Nat) (hn : 0 < n)
    (s : Nat) : ∀ t ∈ (generateOutgoing gg n s).1, t < n := by
  rw [generateOutgoing]
  exact genOut_aux n hn _ _ (by intro t ht; exact absurd ht (List.not_mem_nil t))

theorem genLinks_aux (gg : ZipfGraphGen) (n : Nat) (hn : 0 < n) :
    ∀ (ws : List Nat) (acc : List (List PageId) × Nat),
      (∀ ol ∈ acc.1, ∀ t ∈ ol, t < n) →
      ((ws.foldl (fun (acc : List (List PageId) × Nat) _ =>
          let r := generateOutgoing gg n acc.2
          (acc.1 ++ [r.1], r.2)) acc).1.length = acc.1.length + ws.length ∧
        ∀ ol ∈ (ws.foldl (fun (acc : List (List PageId) × Nat) _ =>
          let r := generateOutgoing gg n acc.2
          (acc.1 ++ [r.1], r.2)) acc).1, ∀ t ∈ ol, t < n)
  | [], _, hacc => ⟨rfl, hacc⟩
  | w :: ws, acc, hacc => by
    rw [List.foldl_cons]
    have hstep : ∀ ol ∈ acc.1 ++ [(generateOutgoing gg n acc.2).1],
        ∀ t ∈ ol, t < n := by
      intro ol hol
      rcases List.mem_append.mp hol with h | h
      · exact hacc ol h
      · rw [List.mem_singleton.mp h]
        exact generateOutgoing_targets gg n hn acc.2
    have ih := genLinks_aux gg n hn ws
      (acc.1 ++ [(generateOutgoing gg n acc.2).1],
        (generateOutgoing gg n acc.2).2) hstep
    refine ⟨?_, ih.2⟩
    rw [ih.1, List.length_append, List.length_singleton, List.length_cons]
    omega

/-- C8 fails as stated: the run seeds the engine from `std::random_device`
(page_rank_run.cpp:208), an environmental entropy source, so two runs with
identical parameters need not agree.  In the embedding the device draw is
an explicit input, and the generated collection differs between draws `0`
and `1` already for one page with `size_mean = 1`. -/
theorem claim_generator_deterministic_counterexample :
    generatedLinks ⟨1, 1, 1, 1⟩ 1 0 = [[]] ∧
    generatedLinks ⟨1, 1, 1, 1⟩ 1 1 = [[0]] ∧
    generatedLinks ⟨1, 1, 1, 1⟩ 1 0 ≠ generatedLinks ⟨1, 1, 1, 1⟩ 1 1 := by
  have h0 : generatedLinks ⟨1, 1, 1, 1⟩ 1 0 = [[]] := by
    norm_num [generatedLinks, generateOutgoing, lcgNext,
      (show List.range 1 = [0] from rfl), List.range_zero]
  have h1 : generatedLinks ⟨1, 1, 1, 1⟩ 1 1 = [[0]] := by
    norm_num [generatedLinks, generateOutgoing, lcgNext,
      (show Int.toNat 2 = 2 from rfl), (show (16807 % (2 + 1) : Nat) = 1 from rfl),
      (show List.range 1 = [0] from rfl), List.range_zero,
      List.foldl_cons, List.foldl_nil]
  refine ⟨h0, h1, ?_⟩
  rw [h0, h1]
  intro hcontra
  exact absurd hcontra (by decide)

/-- C8 (amended): the generated collection is a deterministic function of
the page count, the degree-distribution parameters and the per-run seed
drawn from `std::random_device`: for every fixed seed it holds exactly one
adjacency record per page, with all targets in `[0, num_pages)`; only the
seed varies between runs, so two runs need not produce the same
collection. -/
theorem claim_generator_deterministic_amended (gg : ZipfGraphGen) (n : Nat)
    (hn : 0 < n) (seed : Nat) :
    (generatedLinks gg n seed).length = n ∧
    ∀ ol ∈ generatedLinks gg n seed, ∀ t ∈ ol, t < n := by
  rw [generatedLinks]
  have h := genLinks_aux gg n hn (List.range n) ([], seed)
    (by intro ol hol; exact absurd hol (List.not_mem_nil ol))
  refine ⟨?_, h.2⟩
  rw [h.1]
  simp

/-- Witness for the amended C8 at three pages and seed 7. -/
theorem claim_generator_deterministic_amended_witness :
    0 < 3 ∧ (generatedLinks ⟨2, 1, 1, 1⟩ 3 7).length = 3 :=
  ⟨by decide,
    (claim_generator_deterministic_amended ⟨2, 1, 1, 1⟩ 3 (by decide) 7).1⟩

/-! ## Claim C4: the join shape against the index shape -/

theorem range_filter_eq : ∀ (n p : Nat), p < n →
    (List.range n).filter (fun q => q = p) = [p]
  | 0, p, hp => absurd hp (Nat.not_lt_zero p)
  | n + 1, p, hp => by
    rw [List.range_succ, List.filter_append]
    by_cases hc : p < n
    · rw [range_filter_eq n p hc,
        show List.filter (fun q => q = p) [n] = [] by
          simp [List.filter_cons, Nat.ne_of_gt hc],
        List.append_nil]
    · have hpn : p = n := by omega
      subst hpn
      rw [show (List.range p).filter (fun q => q = p) = [] from
          List.filter_eq_nil_iff.mpr (fun a ha => by
            simp only [decide_eq_true_eq]
            exact Nat.ne_of_lt (List.mem_range.mp ha)),
        List.nil_append]
      simp [List.filter_cons]

theorem flatMap_map_list {α β γ : Type} (l : List α) (f : α → β)
    (g : β → List γ) :
    (l.map f).flatMap g = l.flatMap (fun x => g (f x)) := by
  induction l with
  | nil => rfl
  | cons a t ih => rw [List.map_cons, List.flatMap_cons, List.flatMap_cons, ih]

theorem flatMap_singletons {α β : Type} (u : α → β) :
    ∀ (l : List α) (g : α → List β), (∀ x ∈ l, g x = [u x]) →
      l.flatMap g = l.map u
  | [], _, _ => rfl
  | a :: t, g, h => by
    rw [List.flatMap_cons, List.map_cons,
      h a (List.mem_cons_self a t),
      flatMap_singletons u t g (fun x hx => h x (List.mem_cons_of_mem a hx))]
    rfl

/-- Filtering the canonical key enumeration for one key in range yields the
single matching record. -/
theorem filter_enum_single {α : Type} (g : Nat → α) (n p : Nat) (hp : p < n) :
    (((List.range n).map (fun q => (q, g q))).filter
      (fun c => c.1 = p)) = [(p, g p)] := by
  rw [List.filter_map]
  have hpred : ((fun c : Nat × α => decide (c.1 = p)) ∘ (fun q => (q, g q))) =
      (fun q => decide (q = p)) := rfl
  rw [hpred, range_filter_eq n p hp]
  rfl

/-- A `(range n).map` enumeration of two aligned lists is their zip. -/
theorem enum_zip {α β : Type} (xs : List α) (ys : List β) (n : Nat)
    (d₁ : α) (d₂ : β) (hx : xs.length = n) (hy : ys.length = n) :
    (List.range n).map (fun p => (xs.getD p d₁, ys.getD p d₂)) = xs.zip ys := by
  apply List.ext_getElem
  · simp [hx, hy]
  · intro i h1 h2
    rw [List.getElem_map, List.getElem_range, List.getElem_zip]
    have hi : i < n := by simpa using h1
    rw [List.getD_eq_getElem xs d₁ (by omega), List.getD_eq_getElem ys d₂ (by omega)]

/-- The flat join of the canonical adjacency enumeration with the canonical
rank enumeration is exactly the index-based `Zip`. -/
theorem joinFlat_outs_eq (linksI : List (List PageId)) (r : List Rank)
    (n : Nat) (hlenI : linksI.length = n) (hlenr : r.length = n) :
    innerJoinList Prod.fst Prod.fst (fun lp rp => (lp.2, rp.2))
      ((List.range n).map (fun p => (p, linksI.getD p [])))
      ((List.range n).map (fun q => (q, r.getD q 0))) = linksI.zip r := by
  rw [innerJoinList, flatMap_map_list]
  rw [flatMap_singletons (fun p => (linksI.getD p [], r.getD p 0)) _ _ ?_]
  · exact enum_zip linksI r n [] 0 hlenI hlenr
  · intro p hp
    rw [show ((p, linksI.getD p []) : LinkedPage).1 = p from rfl]
    rw [filter_enum_single (fun q => r.getD q 0) n p (List.mem_range.mp hp)]
    rfl

theorem foldr_max_le : ∀ (l : List Nat) (N : Nat), (∀ x ∈ l, x ≤ N) →
    l.foldr max 0 ≤ N
  | [], _, _ => Nat.zero_le _
  | a :: t, N, h => by
    rw [List.foldr_cons]
    exact Nat.max_le.mpr ⟨h a (List.mem_cons_self a t),
      foldr_max_le t N (fun x hx => h x (List.mem_cons_of_mem a hx))⟩

theorem le_foldr_max : ∀ (l : List Nat) (x : Nat), x ∈ l → x ≤ l.foldr max 0
  | [], _, hx => absurd hx (List.not_mem_nil _)
  | a :: t, x, hx => by
    rw [List.foldr_cons]
    rcases List.mem_cons.mp hx with rfl | hmem
    · exact Nat.le_max_left _ _
    · exact Nat.le_trans (le_foldr_max t x hmem) (Nat.le_max_right _ _)

/-- When the contribution keys are bounded by `n` and cover all of
`[0, n)`, the canonical key order of `ReducePair` is exactly `range n`. -/
theorem sortedKeys_full (contribs : List (PageId × Rank)) (n : Nat)
    (hn : 0 < n) (hub : ∀ k ∈ contribs.map Prod.fst, k < n)
    (hcov : ∀ q, q < n → q ∈ contribs.map Prod.fst) :
    sortedKeys contribs = List.range n := by
  rw [sortedKeys]
  have hfold : (contribs.map Prod.fst).foldr max 0 = n - 1 := by
    apply Nat.le_antisymm
    · apply foldr_max_le
      intro x hx
      exact Nat.le_pred_of_lt (hub x hx)
    · exact le_foldr_max _ _ (hcov (n - 1) (by omega))
  rw [hfold, show n - 1 + 1 = n by omega]
  apply List.filter_eq_self.mpr
  intro k hk
  simp only [List.contains, List.elem_eq_mem, decide_eq_true_eq]
  exact hcov k (List.mem_range.mp hk)

/-- Contribution keys of the zipped link table are bounded by `n`. -/
theorem contribs_keys_ub (linksI : List (List PageId)) (r : List Rank)
    (n : Nat) (htg : ∀ ol ∈ linksI, ∀ t ∈ ol, t < n) :
    ∀ k ∈ ((linksI.zip r).flatMap emitContribs).map Prod.fst, k < n := by
  intro k hk
  rcases List.mem_map.mp hk with ⟨c, hc, rfl⟩
  rcases List.mem_flatMap.mp hc with ⟨p, hp, hcp⟩
  rw [emitContribs] at hcp
  by_cases hz : p.1.length = 0
  · rw [if_pos hz] at hcp
    exact absurd hcp (List.not_mem_nil c)
  · rw [if_neg hz] at hcp
    rcases List.mem_map.mp hcp with ⟨t, ht, rfl⟩
    exact htg p.1 (List.of_mem_zip hp).1 t ht

/-- With every page holding at least one incoming link, every key of
`[0, n)` receives a contribution. -/
theorem contribs_keys_cov (linksI : List (List PageId)) (r : List Rank)
    (n : Nat) (hlenI : linksI.length = n) (hlenr : r.length = n)
    (hin : ∀ q ∈ List.range n, ∃ p ∈ List.range n, q ∈ linksI.getD p []) :
    ∀ q, q < n → q ∈ ((linksI.zip r).flatMap emitContribs).map Prod.fst := by
  intro q hq
  rcases hin q (List.mem_range.mpr hq) with ⟨p, hpmem, hqp⟩
  have hzip : linksI.zip r =
      (List.range n).map (fun p => (linksI.getD p [], r.getD p 0)) :=
    (enum_zip linksI r n [] 0 hlenI hlenr).symm
  have hmem : (linksI.getD p [], r.getD p 0) ∈ linksI.zip r := by
    rw [hzip]
    exact List.mem_map.mpr ⟨p, hpmem, rfl⟩
  have hnz : ¬ ((linksI.getD p []).length = 0) := by
    intro hz
    rw [List.length_eq_zero.mp hz] at hqp
    exact absurd hqp (List.not_mem_nil q)
  apply List.mem_map.mpr
  refine ⟨(q, r.getD p 0 / (((linksI.getD p []).length : ℚ))), ?_, rfl⟩
  apply List.mem_flatMap.mpr
  refine ⟨(linksI.getD p [], r.getD p 0), hmem, ?_⟩
  rw [emitContribs, if_neg hnz]
  exact List.mem_map.mpr ⟨q, hqp, rfl⟩

/-- The join-shape loop body on the canonical enumerations equals the
canonical enumeration of the index-shape loop body. -/
theorem joinIterFlat_enum (linksI : List (List PageId)) (n : Nat) (hn : 0 < n)
    (hlenI : linksI.length = n)
    (htg : ∀ ol ∈ linksI, ∀ t ∈ ol, t < n)
    (hin : ∀ q ∈ List.range n, ∃ p ∈ List.range n, q ∈ linksI.getD p [])
    (r : List Rank) (hlenr : r.length = n) :
    joinIterFlat n ((List.range n).map (fun p => (p, linksI.getD p [])))
      ((List.range n).map (fun q => (q, r.getD q 0))) =
    (List.range n).map (fun p => (p, (pageRankIter linksI n r).getD p 0)) := by
  rw [joinIterFlat, joinFlat_outs_eq linksI r n hlenI hlenr, reducePair,
    sortedKeys_full _ n hn (contribs_keys_ub linksI r n htg)
      (contribs_keys_cov linksI r n hlenI hlenr hin),
    List.map_map]
  apply List.map_congr_left
  intro p hp
  have hpn := List.mem_range.mp hp
  simp only [Function.comp_apply]
  rw [pageRankIter_getD linksI n r p hpn, contribs_filter_sum, rawTotalIndex]

/-- At every iteration count, the flat-join shape on the canonical link
enumeration equals the canonical enumeration of the index-shape ranks. -/
theorem pageRankJoinFlat_eq_index (linksI : List (List PageId)) (n : Nat)
    (hn : 0 < n) (hlenI : linksI.length = n)
    (htg : ∀ ol ∈ linksI, ∀ t ∈ ol, t < n)
    (hin : ∀ q ∈ List.range n, ∃ p ∈ List.range n, q ∈ linksI.getD p []) :
    ∀ k, pageRankJoinFlat
        ((List.range n).map (fun p => (p, linksI.getD p []))) n k =
      (List.range n).map (fun p => (p, (pageRank linksI n k).getD p 0))
  | 0 => by
    rw [pageRankJoinFlat, Function.iterate_zero_apply]
    apply List.map_congr_left
    intro p hp
    rw [pageRank, Function.iterate_zero_apply, initRanks,
      List.getD_eq_getElem _ _ (by simpa using List.mem_range.mp hp),
      List.getElem_replicate]
  | k + 1 => by
    rw [pageRankJoinFlat, Function.iterate_succ_apply']
    have hrec := pageRankJoinFlat_eq_index linksI n hn hlenI htg hin k
    rw [pageRankJoinFlat] at hrec
    rw [hrec,
      joinIterFlat_enum linksI n hn hlenI htg hin (pageRank linksI n k)
        (pageRank_length linksI n k)]
    have heq : pageRank linksI n (k + 1) =
        pageRankIter linksI n (pageRank linksI n k) := by
      rw [pageRank, pageRank, Function.iterate_succ_apply']
    rw [heq]

/-- C4 fails as stated: a page with no incoming links keeps the dampening
floor in the index-based shape but drops out of the join-based rank
collection entirely, so the two shapes do not converge to the same
per-page vector on every input graph.  This predicate states the claim's
convergence property for a concrete graph; the counterexample refutes it
on the graph with edges 0→1 and 1→1, where page 0 has no in-links. -/
def joinMatchesIndexInLimit (linksI : List (List PageId))
    (linksJ : List LinkedPage) (n : Nat) : Prop :=
  ∀ ε : ℚ, 0 < ε → ∃ N : Nat, ∀ k, N ≤ k → ∀ p, p < n →
    |(pageRank linksI n k).getD p 0 -
      ranksValue (pageRankJoin true 1 linksJ n k) p| ≤ ε

theorem mem_innerJoinList_src {α β γ : Type} {ka : α → Nat} {kb : β → Nat}
    {f : α → β → γ} {ls : List α} {rs : List β} {x : γ}
    (hx : x ∈ innerJoinList ka kb f ls rs) :
    ∃ a ∈ ls, ∃ b ∈ rs, x = f a b := by
  rcases List.mem_flatMap.mp hx with ⟨a, ha, hm⟩
  rcases List.mem_map.mp hm with ⟨b, hb, rfl⟩
  exact ⟨a, ha, b, List.mem_of_mem_filter hb, rfl⟩

theorem mem_localPartitionJoin_src {α β γ : Type} {ka : α → Nat}
    {kb : β → Nat} {f : α → β → γ} {ps : List (List α)} {qs : List (List β)}
    {x : γ} (hx : x ∈ localPartitionJoin ka kb f ps qs) :
    ∃ a ∈ ps.flatten, ∃ b ∈ qs.flatten, x = f a b := by
  rcases List.mem_flatten.mp hx with ⟨L, hL, hxL⟩
  rcases List.mem_map.mp hL with ⟨pq, hpq, rfl⟩
  rcases mem_innerJoinList_src hxL with ⟨a, ha, b, hb, rfl⟩
  exact ⟨a, List.mem_flatten.mpr ⟨pq.1, (List.of_mem_zip hpq).1, ha⟩,
    b, List.mem_flatten.mpr ⟨pq.2, (List.of_mem_zip hpq).2, hb⟩, rfl⟩

theorem mem_flatten_partitionBy {α : Type} {W : Nat} {key : α → Nat}
    {l : List α} {a : α} (h : a ∈ (partitionBy W key l).flatten) : a ∈ l := by
  rcases List.mem_flatten.mp h with ⟨L, hL, ha⟩
  rw [partitionBy] at hL
  rcases List.mem_map.mp hL with ⟨w, _, rfl⟩
  exact List.mem_of_mem_filter ha

theorem mem_innerJoinLD_src {α β γ : Type} {flag : Bool} {W : Nat}
    {ka : α → Nat} {kb : β → Nat} {f : α → β → γ} {ps : List (List α)}
    {qs : List (List β)} {x : γ}
    (hx : x ∈ innerJoinLD flag W ka kb f ps qs) :
    ∃ a ∈ ps.flatten, ∃ b ∈ qs.flatten, x = f a b := by
  rw [innerJoinLD] at hx
  by_cases hc : (flag && coPartitioned ka kb ps qs) = true
  · rw [if_pos hc] at hx
    exact mem_localPartitionJoin_src hx
  · rw [if_neg hc] at hx
    rcases mem_localPartitionJoin_src hx with ⟨a, ha, b, hb, rfl⟩
    exact ⟨a, mem_flatten_partitionBy ha, b, mem_flatten_partitionBy hb, rfl⟩

/-- Every rank record produced by a `PageRankJoin` iteration on the graph
`0→1, 1→1` is keyed by page 1: page 0 never receives a contribution. -/
theorem joinIter_keys_one (ranks : List RankedPage) :
    ∀ c ∈ joinIter true 1 2 [(0, [1]), (1, [1])] ranks, c.1 = 1 := by
  intro c hc
  rw [joinIter] at hc
  rcases List.mem_map.mp hc with ⟨q, hq, rfl⟩
  rcases List.mem_map.mp hq with ⟨k, hk, rfl⟩
  show k = 1
  rw [sortedKeys] at hk
  have hk2 := List.of_mem_filter hk
  simp only [List.contains, List.elem_eq_mem, decide_eq_true_eq] at hk2
  rcases List.mem_map.mp hk2 with ⟨c2, hc2, rfl⟩
  rcases List.mem_flatMap.mp hc2 with ⟨p, hp, hcp⟩
  rcases mem_innerJoinLD_src hp with ⟨lp, hlp, rp, _, rfl⟩
  have hlp2 : lp ∈ [((0 : PageId), [(1 : PageId)]), (1, [1])] :=
    mem_flatten_partitionBy hlp
  have hsnd : lp.2 = [1] := by
    rcases List.mem_cons.mp hlp2 with rfl | h2
    · rfl
    · rw [List.mem_singleton.mp h2]
  rw [emitContribs] at hcp
  by_cases hz : (lp.2, rp.2).1.length = 0
  · rw [if_pos hz] at hcp
    exact absurd hcp (List.not_mem_nil c2)
  · rw [if_neg hz] at hcp
    rcases List.mem_map.mp hcp with ⟨t, ht, rfl⟩
    show t = 1
    have : t ∈ lp.2 := ht
    rw [hsnd] at this
    exact List.mem_singleton.mp this

/-- On the graph `0→1, 1→1`, after any positive number of iterations the
join-based rank collection assigns page 0 no mass. -/
theorem pageRankJoin_page0 (m : Nat) :
    ranksValue (pageRankJoin true 1 [(0, [1]), (1, [1])] 2 (m + 1)) 0 = 0 := by
  rw [pageRankJoin, Function.iterate_succ_apply', ranksValue]
  rw [List.filter_eq_nil_iff.mpr ?_]
  · rfl
  · intro c hc
    have h1 := joinIter_keys_one _ c hc
    simp only [decide_eq_true_eq]
    intro hc0
    rw [h1] at hc0
    exact absurd hc0 (by decide)

/-- After any positive number of index-based iterations on the graph
`0→1, 1→1`, page 0 holds exactly the dampening floor `3/40`. -/
theorem pageRank_page0 (m : Nat) :
    (pageRank [[1], [1]] 2 (m + 1)).getD 0 0 = 3 / 40 := by
  rw [pageRank, Function.iterate_succ_apply']
  have hraw : rawTotalIndex [[1], [1]] ((pageRankIter [[1], [1]] 2)^[m]
      (initRanks 2)) 0 = 0 := by
    rw [rawTotalIndex]
    apply List.sum_eq_zero
    intro y hy
    rcases List.mem_map.mp hy with ⟨p, hp, rfl⟩
    have h1 := (List.of_mem_zip hp).1
    have hfst : p.1 = [1] := by
      rcases List.mem_cons.mp h1 with h2 | h2
      · exact h2
      · exact List.mem_singleton.mp h2
    rw [hfst]
    norm_num [List.filter_cons]
  rw [pageRankIter_getD [[1], [1]] 2 _ 0 (by norm_num), hraw]
  norm_num [dampening]

/-- C4 as stated is false: on the graph with edges 0→1 and 1→1 the
index-based shape keeps page 0 at the dampening floor `3/40` forever, while
the join-based shape never again produces a rank record for page 0, so the
two shapes stay at distance `3/40 > 1/100` at every iteration count. -/
theorem claim_join_index_limit_counterexample :
    ¬ joinMatchesIndexInLimit [[1], [1]] [(0, [1]), (1, [1])] 2 := by
  intro h
  obtain ⟨N, hN⟩ := h (1 / 100) (by norm_num)
  have hbound := hN (N + 1) (by omega) 0 (by omega)
  rw [pageRank_page0 N, pageRankJoin_page0 N, sub_zero,
    abs_of_pos (by norm_num : (0 : ℚ) < 3 / 40)] at hbound
  norm_num at hbound

/-- C4 (amended): on every graph in which each of the `n` pages has at
least one outgoing link (all targets in `[0, n)`) and at least one
incoming link, the join-based shape (`PageRankJoin`, any location-detection
flag, any positive worker count, adjacency records enumerated in page
order) computes at every iteration count exactly the index-based rank
for every page, so in particular the two shapes converge to the same
per-page rank vector. -/
theorem claim_join_index_equiv (linksI : List (List PageId)) (n : Nat)
    (hn : 0 < n) (hlenI : linksI.length = n)
    (_hne : ∀ ol ∈ linksI, ol ≠ [])
    (htg : ∀ ol ∈ linksI, ∀ t ∈ ol, t < n)
    (hin : ∀ q ∈ List.range n, ∃ p ∈ List.range n, q ∈ linksI.getD p [])
    (flag : Bool) (W : Nat) (hW : 0 < W) (k : Nat) :
    pageRankJoin flag W
        ((List.range n).map (fun p => (p, linksI.getD p []))) n k =
      (List.range n).map (fun p => (p, (pageRank linksI n k).getD p 0)) := by
  have hfun : joinIter flag W n
      ((List.range n).map (fun p => (p, linksI.getD p []))) =
      joinIterFlat n ((List.range n).map (fun p => (p, linksI.getD p []))) :=
    funext (joinIter_eq_flat flag W hW n _)
  rw [pageRankJoin, hfun]
  exact pageRankJoinFlat_eq_index linksI n hn hlenI htg hin k

/-- Witness for the amended C4 on the two-page cycle, two iterations. -/
theorem claim_join_index_equiv_witness :
    0 < 2 ∧ 0 < 3 ∧
    pageRankJoin true 3
        ((List.range 2).map (fun p => (p, ([[1], [0]] : List (List PageId)).getD p []))) 2 2 =
      (List.range 2).map (fun p => (p, (pageRank [[1], [0]] 2 2).getD p 0)) :=
  ⟨by decide, by decide,
    claim_join_index_equiv [[1], [0]] 2 (by decide) (by decide) (by decide)
      (by decide) (by decide) true 3 (by decide) 2⟩

end PageRankSpec
